import Mathlib

/-!
Shallow embedding of the vector-store core of the `ai-policy-helper` backend
(`backend/app/utils.py`, `backend/app/vector_store.py`, `backend/app/orchestrator.py`,
`backend/app/ingest.py`), with theorems checking the specification's claims.

Modelling conventions:
* Python floats are modelled as exact rationals (`ℚ`); the embedding keeps the
  source's epsilon terms (`1e-9`) literally.
* Embedding vectors are an abstract type `Vec` together with abstract
  `dot : Vec → Vec → ℚ` and `norm : Vec → ℚ` functions (the float `sqrt` in
  `np.linalg.norm` has no exact rational counterpart; every claim proved here
  is independent of the concrete values these functions take).
* Raising an exception is `Except.error`; Python `None` is `PyVal.none` where
  the distinction between `None` and other values matters (`utils.retry_with_backoff`).
* `time.time()` is passed in explicitly as a rational timestamp.
* The md5 cache fingerprint of (query bytes, k) is modelled as the pair itself
  (an injective fingerprint; md5 collisions are out of scope).
-/

namespace PolicyHelper

/-- A Python runtime value, for the places where the code distinguishes
`None` from other values (`utils.retry_with_backoff` returns the wrapped
function's value on success and `None` on exhaustion; `QdrantStore.upsert`
tests `result is None`). -/
inductive PyVal where
  | none : PyVal
  | bool (b : Bool) : PyVal
  | int (n : Int) : PyVal
  | str (s : String) : PyVal
deriving DecidableEq, Repr

/-- Python truthiness for the values we model (`None`, `False`, `0`, `""` are falsy). -/
def PyVal.truthy : PyVal → Bool
  | .none => false
  | .bool b => b
  | .int n => n != 0
  | .str s => s != ""

/-- Python `a or b`: the first operand when truthy, otherwise the second. -/
def pyOr (a b : PyVal) : PyVal := if a.truthy then a else b

/-! ## `utils.retry_with_backoff`

The loop `for attempt in range(max_retries + 1)` from `backend/app/utils.py`
lines 21-33, embedded with the wrapped operation as a function from the attempt
index to an `Except` outcome.  The embedding returns, besides the result,
the number of invocations of the operation and the list of back-off delays
slept between consecutive attempts (`time.sleep(delay)` line 31). -/

/-- The delay slept after a failed attempt `attempt` (utils.py line 29):
`min(base_delay * (2 ** attempt), max_delay)`. -/
def backoffDelay (base maxd : ℚ) (attempt : ℕ) : ℚ :=
  min (base * 2 ^ attempt) maxd

/-- One pass of the retry loop: `rem` is the number of loop iterations left
(initially `max_retries + 1`), `attempt` the current attempt index.  Returns
(result — `Option.none` when every attempt raised, invocation count, delays slept). -/
def retryLoop {V : Type} (f : ℕ → Except Unit V) (base maxd : ℚ) :
    ℕ → ℕ → Option V × ℕ × List ℚ
  | 0, _ => (Option.none, 0, [])
  | rem + 1, attempt =>
    match f attempt with
    | .ok v => (Option.some v, 1, [])
    | .error _ =>
      if rem = 0 then (Option.none, 1, [])
      else
        let r := retryLoop f base maxd rem (attempt + 1)
        (r.1, r.2.1 + 1, backoffDelay base maxd attempt :: r.2.2)

/-- `utils.retry_with_backoff`, with the result kept as an `Option`
(`Option.none` = the Python `return None` on exhaustion). -/
def retry_with_backoff {V : Type} (f : ℕ → Except Unit V) (maxRetries : ℕ)
    (base maxd : ℚ) : Option V × ℕ × List ℚ :=
  retryLoop f base maxd (maxRetries + 1) 0

/-- `utils.retry_with_backoff` at the Python value level: the caller receives a
single `PyVal`, with exhaustion collapsed onto the value `PyVal.none` exactly as
in the source (`return None`). -/
def retryPy (f : ℕ → Except Unit PyVal) (maxRetries : ℕ) (base maxd : ℚ) :
    PyVal × ℕ × List ℚ :=
  let r := retry_with_backoff f maxRetries base maxd
  (r.1.getD PyVal.none, r.2)

/-- The failure test `QdrantStore.upsert` applies to the retry executor's result
(vector_store.py line 361: `if result is None`). -/
def upsertFailedCheck (r : PyVal) : Bool := r == PyVal.none

/-! ## The query-result cache

`InMemoryStore` and `QdrantStore` maintain identical caches
(`self._query_cache : Dict[str, Tuple[List[Tuple[float, Dict]], float]]`,
vector_store.py lines 62-64 and 224-226, with `_get_query_hash`,
`_is_cache_valid` and `_cleanup_cache` duplicated verbatim in both classes).
The dict is modelled as an association list in insertion order (Python dicts
iterate in insertion order, and assigning to an existing key keeps its
position); the md5 key is modelled by the (query, k) pair itself. -/

/-- `self._cache_ttl = 300` (seconds). -/
def cacheTtl : ℚ := 300

/-- `self._max_cache_size = 1000`. -/
def maxCacheSize : ℕ := 1000

/-- One cache entry: key `(query, k)`, value `(ranked results, timestamp)`. -/
abbrev CacheEntry (Vec M : Type) := (Vec × ℕ) × (List (ℚ × M) × ℚ)

/-- `_is_cache_valid`: `time.time() - timestamp < self._cache_ttl`. -/
def cacheValid (t ts : ℚ) : Bool := t - ts < cacheTtl

/-- `_cleanup_cache` (vector_store.py lines 115-133): drop expired entries, then
if the cache still exceeds the size bound, delete the oldest-by-timestamp
excess entries (Python's `sorted` is stable, hence `insertionSort`). -/
def cleanupCache {Vec M : Type} [DecidableEq Vec] (c : List (CacheEntry Vec M))
    (t : ℚ) : List (CacheEntry Vec M) :=
  let live := c.filter fun e => cacheValid t e.2.2
  if maxCacheSize < live.length then
    let victims := ((List.insertionSort (fun a b : CacheEntry Vec M => a.2.2 ≤ b.2.2)
      live).take (live.length - maxCacheSize)).map Prod.fst
    live.filter fun e => decide (e.1 ∉ victims)
  else live

/-- Dict membership/lookup `self._query_cache[query_hash]`. -/
def lookupCache {Vec M : Type} [DecidableEq Vec] (c : List (CacheEntry Vec M))
    (key : Vec × ℕ) : Option (List (ℚ × M) × ℚ) :=
  (c.find? fun e => decide (e.1 = key)).map Prod.snd

/-- Dict assignment `self._query_cache[query_hash] = (results, time.time())`:
replaces in place when the key is present, appends otherwise. -/
def insertCache {Vec M : Type} [DecidableEq Vec] (c : List (CacheEntry Vec M))
    (key : Vec × ℕ) (v : List (ℚ × M) × ℚ) : List (CacheEntry Vec M) :=
  if (c.find? fun e => decide (e.1 = key)).isSome then
    c.map fun e => if e.1 = key then (key, v) else e
  else c ++ [(key, v)]

/-- `min(self._query_cache.keys(), key=lambda k: self._query_cache[k][1])` and
the subsequent `del` (vector_store.py lines 190-194): Python's `min` keeps the
first strictly-smaller element, so ties resolve to the earliest entry. -/
def popOldest {Vec M : Type} [DecidableEq Vec] (c : List (CacheEntry Vec M)) :
    List (CacheEntry Vec M) :=
  match c.foldl (fun acc e =>
      match acc with
      | Option.none => Option.some e
      | Option.some b => if e.2.2 < b.2.2 then Option.some e else acc)
      (Option.none : Option (CacheEntry Vec M)) with
  | Option.none => c
  | Option.some b => c.eraseP fun e => decide (e.1 = b.1)

/-- `if len(self._query_cache) >= self._max_cache_size: ... del oldest`
(the pre-insert eviction, vector_store.py lines 190-194). -/
def evictIfFull {Vec M : Type} [DecidableEq Vec] (c : List (CacheEntry Vec M)) :
    List (CacheEntry Vec M) :=
  if maxCacheSize ≤ c.length then popOldest c else c

/-! ## `InMemoryStore`

State of `InMemoryStore` (vector_store.py lines 48-66): parallel lists of
vectors and metadata, the set of seen content hashes (kept as a list — only
membership is used), the precomputed norms, and the query cache.  Metadata
is an abstract type `M` with `hashOf : M → Option String` standing for
`m.get("hash")` (`Option.none` = key absent). -/

structure MemStore (Vec M : Type) where
  vecs : List Vec
  meta : List M
  hashes : List String
  norms : List ℚ
  cache : List (CacheEntry Vec M)
deriving DecidableEq

/-- The store as built by `InMemoryStore.__init__`. -/
def MemStore.empty (Vec M : Type) : MemStore Vec M :=
  { vecs := [], meta := [], hashes := [], norms := [], cache := [] }

/-- Truthiness of `m.get("hash")` (`if h` / `if h and ...`): a present,
non-empty string. -/
def truthyHash : Option String → Bool
  | Option.none => false
  | Option.some s => s != ""

/-- The append part of one iteration of the `for v, m in zip(...)` loop of
`InMemoryStore.upsert` (vector_store.py lines 82-85): append the vector and
its metadata, and record the content hash when it is truthy. -/
def upsertStep {Vec M : Type} (hashOf : M → Option String) (v : Vec) (m : M)
    (S : MemStore Vec M) : MemStore Vec M :=
  { S with
    vecs := S.vecs ++ [v]
    meta := S.meta ++ [m]
    hashes := if truthyHash (hashOf m) then S.hashes ++ [(hashOf m).getD ""]
      else S.hashes }

/-- The body of the `for v, m in zip(vectors, metadatas)` loop of
`InMemoryStore.upsert` (vector_store.py lines 77-86), returning the updated
store together with the running `vectors_added` counter. -/
def upsertLoop {Vec M : Type} (hashOf : M → Option String) :
    List (Vec × M) → MemStore Vec M → MemStore Vec M × ℕ
  | [], S => (S, 0)
  | (v, m) :: rest, S =>
    if truthyHash (hashOf m) ∧ (hashOf m).getD "" ∈ S.hashes then
      upsertLoop hashOf rest S
    else
      ((upsertLoop hashOf rest (upsertStep hashOf v m S)).1,
       (upsertLoop hashOf rest (upsertStep hashOf v m S)).2 + 1)

/-- `InMemoryStore.upsert` (vector_store.py lines 68-94).  The returned `ℕ` is
the internal `vectors_added` counter; in the source it is only written to the
debug log (line 94), never returned to the caller. -/
def memUpsert {Vec M : Type} (norm : Vec → ℚ) (hashOf : M → Option String)
    (S : MemStore Vec M) (vectors : List Vec) (metadatas : List M) :
    MemStore Vec M × ℕ :=
  if 0 < (upsertLoop hashOf (vectors.zip metadatas) S).2 then
    ({ (upsertLoop hashOf (vectors.zip metadatas) S).1 with
        norms := (upsertLoop hashOf (vectors.zip metadatas) S).1.vecs.map norm
        cache := [] },
     (upsertLoop hashOf (vectors.zip metadatas) S).2)
  else upsertLoop hashOf (vectors.zip metadatas) S

/-! ## `InMemoryStore.search`

The similarity computation (vector_store.py lines 164-170) and the top-k
selection (lines 172-187).  `np.argsort(-sims)` is called with the default
sort kind (quicksort/introsort), which NumPy documents as *not* stable, so
the source pins down only the argsort's contract — the returned indices are a
permutation of `0..len-1` along which the scores are non-increasing — and
leaves the order of tied entries unspecified.  The search pipeline is
therefore parameterized by an arbitrary `argsort` implementation
(`topkIdxWith`, `searchComputeResWith`, `memSearchWith`), and the claims
about the program quantify over every implementation satisfying that
contract (`ArgsortSpec`).  Two concrete admissible implementations are
defined for witnesses and counterexamples: `argsortDesc` (stable — ties by
ascending index, the tie resolution the spec's §3 "Search result" describes
and the one the spec-side `bruteForceTopK` ranking uses) and
`argsortDescAnti` (ties by descending index). -/

/-- `1e-9`, the epsilon of vector_store.py lines 166 and 170. -/
def eps : ℚ := 1 / 1000000000

/-- "Index `i` may precede index `j` in a descending argsort of `xs`":
the score at `j` does not exceed the score at `i`. -/
def valGE (xs : List ℚ) (i j : ℕ) : Prop :=
  xs.getD j 0 ≤ xs.getD i 0

/-- The contract NumPy documents for `np.argsort(-xs)` (any sort kind):
the result is a permutation of the positions `0..len-1`, arranged so that
the scores along it are non-increasing.  Tie order is *not* specified. -/
def ArgsortSpec (f : List ℚ → List ℕ) : Prop :=
  ∀ xs : List ℚ, (f xs).Perm (List.range xs.length)
    ∧ List.Sorted (valGE xs) (f xs)

/-- The order in which index `i` precedes index `j` in the *stable*
descending argsort of the score list `xs` (ties by ascending index). -/
def idxLe (xs : List ℚ) (i j : ℕ) : Prop :=
  xs.getD j 0 < xs.getD i 0 ∨ (xs.getD i 0 = xs.getD j 0 ∧ i ≤ j)

instance idxLe.decRel (xs : List ℚ) : DecidableRel (idxLe xs) := fun _ _ =>
  inferInstanceAs (Decidable (_ ∨ _))

instance idxLe.total (xs : List ℚ) : IsTotal ℕ (idxLe xs) where
  total i j := by
    rcases lt_trichotomy (xs.getD i 0) (xs.getD j 0) with h | h | h
    · exact Or.inr (Or.inl h)
    · rcases Nat.le_total i j with hij | hij
      · exact Or.inl (Or.inr ⟨h, hij⟩)
      · exact Or.inr (Or.inr ⟨h.symm, hij⟩)
    · exact Or.inl (Or.inl h)

instance idxLe.trans (xs : List ℚ) : IsTrans ℕ (idxLe xs) where
  trans i j l hij hjl := by
    rcases hij with h | ⟨he, hle⟩ <;> rcases hjl with h' | ⟨he', hle'⟩
    · exact Or.inl (h'.trans h)
    · exact Or.inl (he' ▸ h)
    · exact Or.inl (he ▸ h')
    · exact Or.inr ⟨he.trans he', hle.trans hle'⟩

instance idxLe.antisymm (xs : List ℚ) : IsAntisymm ℕ (idxLe xs) where
  antisymm i j hij hji := by
    rcases hij with h | ⟨he, hle⟩ <;> rcases hji with h' | ⟨he', hle'⟩
    · exact absurd h' (lt_asymm h)
    · exact absurd h (he' ▸ lt_irrefl _)
    · exact absurd h' (he ▸ lt_irrefl _)
    · exact Nat.le_antisymm hle hle'

/-- The stable descending argsort: indices sorted by score descending, ties
by original position.  One admissible implementation of `ArgsortSpec`; it is
also the ranking the spec itself prescribes (§3 "Search result": "ties broken
by original insertion/storage order"), so it is the spec-side ranking of
`bruteForceTopK` and the implementation used where a claim's observables do
not depend on tie order. -/
def argsortDesc (xs : List ℚ) : List ℕ :=
  List.insertionSort (idxLe xs) (List.range xs.length)

/-- The anti-stable order: ties by *descending* index. -/
def idxLeAnti (xs : List ℚ) (i j : ℕ) : Prop :=
  xs.getD j 0 < xs.getD i 0 ∨ (xs.getD i 0 = xs.getD j 0 ∧ j ≤ i)

instance idxLeAnti.decRel (xs : List ℚ) : DecidableRel (idxLeAnti xs) := fun _ _ =>
  inferInstanceAs (Decidable (_ ∨ _))

instance idxLeAnti.total (xs : List ℚ) : IsTotal ℕ (idxLeAnti xs) where
  total i j := by
    rcases lt_trichotomy (xs.getD i 0) (xs.getD j 0) with h | h | h
    · exact Or.inr (Or.inl h)
    · rcases Nat.le_total i j with hij | hij
      · exact Or.inr (Or.inr ⟨h.symm, hij⟩)
      · exact Or.inl (Or.inr ⟨h, hij⟩)
    · exact Or.inl (Or.inl h)

instance idxLeAnti.trans (xs : List ℚ) : IsTrans ℕ (idxLeAnti xs) where
  trans i j l hij hjl := by
    rcases hij with h | ⟨he, hle⟩ <;> rcases hjl with h' | ⟨he', hle'⟩
    · exact Or.inl (h'.trans h)
    · exact Or.inl (he' ▸ h)
    · exact Or.inl (he ▸ h')
    · exact Or.inr ⟨he.trans he', hle'.trans hle⟩

/-- A second admissible implementation of `ArgsortSpec`: descending argsort
with ties by *descending* index — a tie order an unstable sort may produce. -/
def argsortDescAnti (xs : List ℚ) : List ℕ :=
  List.insertionSort (idxLeAnti xs) (List.range xs.length)

/-- `np.partition(sims, -k)[-k]` (vector_store.py line 179): the element at
(Python) index `-k` of the ascending-sorted array, i.e. at position
`(len - k) % len` — the k-th largest value for `k ≥ 1`, the minimum for
`k = 0` (index `-0` is `0`). -/
def kthPartitionVal (xs : List ℚ) (k : ℕ) : ℚ :=
  (List.insertionSort (· ≤ ·) xs).getD ((xs.length - k) % xs.length) 0

/-- `top_candidates = np.where(sims >= threshold)[0]` (vector_store.py line
181): the indices at or above the partition threshold, in ascending order. -/
def candIdx (xs : List ℚ) (k : ℕ) : List ℕ :=
  (List.range xs.length).filter fun i => decide (kthPartitionVal xs k ≤ xs.getD i 0)

/-- The index selection of `InMemoryStore.search` (vector_store.py lines
172-185), for an arbitrary argsort implementation `f` standing for both
`np.argsort` calls: a full argsort when `len(sims) <= k`, otherwise the
`argpartition`-style candidate selection
(`candidate_sims = sims[top_candidates]`,
`final_order = np.argsort(-candidate_sims)[:k]`,
`idx = top_candidates[final_order]`). -/
def topkIdxWith (f : List ℚ → List ℕ) (xs : List ℚ) (k : ℕ) : List ℕ :=
  if xs.length ≤ k then f xs
  else
    ((f ((candIdx xs k).map fun i => xs.getD i 0)).take k).map
      fun j => (candIdx xs k).getD j 0

/-- The index selection at the stable argsort instance. -/
def topkIdx (xs : List ℚ) (k : ℕ) : List ℕ :=
  topkIdxWith argsortDesc xs k

/-- The score list (vector_store.py line 170):
`(A @ q.T).ravel() / (self._precomputed_norms * query_norm + 1e-9)` with
`query_norm = np.linalg.norm(q) + 1e-9` (line 166). -/
def simsOf {Vec : Type} (dot : Vec → Vec → ℚ) (norm : Vec → ℚ) (vecs : List Vec)
    (norms : List ℚ) (q : Vec) : List ℚ :=
  (vecs.zip norms).map fun p => dot p.1 q / (p.2 * (norm q + eps) + eps)

/-- The cache-miss compute path of `InMemoryStore.search` (vector_store.py
lines 160-187), given the possibly-refreshed norms and the argsort
implementation `f`. -/
def searchComputeResWith {Vec M : Type} [Inhabited M] (f : List ℚ → List ℕ)
    (dot : Vec → Vec → ℚ) (norm : Vec → ℚ) (vecs : List Vec) (norms : List ℚ)
    (meta : List M) (q : Vec) (k : ℕ) : List (ℚ × M) :=
  let sims := simsOf dot norm vecs norms q
  (topkIdxWith f sims k).map fun i => (sims.getD i 0, meta.getD i default)

/-- The compute path at the stable argsort instance. -/
def searchComputeRes {Vec M : Type} [Inhabited M] (dot : Vec → Vec → ℚ)
    (norm : Vec → ℚ) (vecs : List Vec) (norms : List ℚ) (meta : List M)
    (q : Vec) (k : ℕ) : List (ℚ × M) :=
  searchComputeResWith argsortDesc dot norm vecs norms meta q k

/-- `InMemoryStore.search` (vector_store.py lines 135-199), at time `t`, for
an arbitrary argsort implementation `f`.  `norm v` stands for
`np.linalg.norm(v)`. -/
def memSearchWith {Vec M : Type} [DecidableEq Vec] [Inhabited M]
    (f : List ℚ → List ℕ) (dot : Vec → Vec → ℚ) (norm : Vec → ℚ)
    (S : MemStore Vec M) (q : Vec) (k : ℕ) (t : ℚ) :
    List (ℚ × M) × MemStore Vec M :=
  if S.vecs.length = 0 then ([], S)
  else
    let key := (q, k)
    let c1 := cleanupCache S.cache t
    let compute : List (ℚ × M) × MemStore Vec M :=
      let norms := if S.norms.length ≠ S.vecs.length then S.vecs.map norm
        else S.norms
      let res := searchComputeResWith f dot norm S.vecs norms S.meta q k
      (res, { S with norms := norms, cache := insertCache (evictIfFull c1) key (res, t) })
    match lookupCache c1 key with
    | Option.some (res, ts) =>
      if cacheValid t ts then (res, { S with cache := c1 }) else compute
    | Option.none => compute

/-- `InMemoryStore.search` at the stable argsort instance — used for the
cache claims, whose observables run the two compared calls through one and
the same implementation and so do not depend on tie order. -/
def memSearch {Vec M : Type} [DecidableEq Vec] [Inhabited M]
    (dot : Vec → Vec → ℚ) (norm : Vec → ℚ) (S : MemStore Vec M) (q : Vec)
    (k : ℕ) (t : ℚ) : List (ℚ × M) × MemStore Vec M :=
  memSearchWith argsortDesc dot norm S q k t

/-- The "score descending, ties by insertion position" order on
(position, score) pairs. -/
def pairOrd (a b : ℕ × ℚ) : Prop := b.2 < a.2 ∨ (a.2 = b.2 ∧ a.1 ≤ b.1)

instance pairOrd.decRel : DecidableRel pairOrd := fun _ _ =>
  inferInstanceAs (Decidable (_ ∨ _))

instance pairOrd.total : IsTotal (ℕ × ℚ) pairOrd where
  total a b := by
    rcases lt_trichotomy a.2 b.2 with h | h | h
    · exact Or.inr (Or.inl h)
    · rcases Nat.le_total a.1 b.1 with hab | hab
      · exact Or.inl (Or.inr ⟨h, hab⟩)
      · exact Or.inr (Or.inr ⟨h.symm, hab⟩)
    · exact Or.inl (Or.inl h)

instance pairOrd.trans : IsTrans (ℕ × ℚ) pairOrd where
  trans a b c hab hbc := by
    rcases hab with h | ⟨he, hle⟩ <;> rcases hbc with h' | ⟨he', hle'⟩
    · exact Or.inl (h'.trans h)
    · exact Or.inl (he' ▸ h)
    · exact Or.inl (he ▸ h')
    · exact Or.inr ⟨he.trans he', hle.trans hle'⟩

instance pairOrd.antisymm : IsAntisymm (ℕ × ℚ) pairOrd where
  antisymm a b hab hba := by
    rcases hab with h | ⟨he, hle⟩ <;> rcases hba with h' | ⟨he', hle'⟩
    · exact absurd h' (lt_asymm h)
    · exact absurd h (he' ▸ lt_irrefl _)
    · exact absurd h' (he ▸ lt_irrefl _)
    · exact Prod.ext (Nat.le_antisymm hle hle') he

/-- Modelled from the spec: the "true top-k by brute-force cosine similarity
computed independently" of spec §8 "Top-k correctness" — score every stored
vector (the §4.3 step-4 similarity, epsilon included), sort all (position,
score) pairs by descending score with ties in insertion order (§3 "Search
result": "ties broken by original insertion/storage order (stable sort)"),
take the first k, and read off (score, metadata) pairs. -/
def bruteForceTopK {Vec M : Type} [Inhabited M] (dot : Vec → Vec → ℚ)
    (norm : Vec → ℚ) (vecs : List Vec) (meta : List M) (q : Vec) (k : ℕ) :
    List (ℚ × M) :=
  let sims := vecs.map fun v => dot v q / (norm v * (norm q + eps) + eps)
  let ranked := List.insertionSort pairOrd sims.enum
  (ranked.take k).map fun p => (p.2, meta.getD p.1 default)

/-! ## `RAGEngine.ingest_chunks`

orchestrator.py lines 241-278, over the in-memory store.  `embed` stands for
`self.embedder.embed` and `dochash` for `ingest.doc_hash` (a SHA-256 hex
digest; kept abstract here). -/

/-- A document chunk as consumed by `ingest_chunks` (`ch["text"]`,
`ch["title"]`, `ch.get("section")`). -/
structure Chunk where
  title : String
  sectionName : Option String
  text : String
deriving DecidableEq, Repr

/-- The metadata dict built at orchestrator.py lines 258-264. -/
structure ChunkMeta where
  id : String
  hash : String
  title : String
  sectionName : Option String
  text : String
deriving DecidableEq, Repr, Inhabited

/-- orchestrator.py lines 257-264. -/
def ChunkMeta.ofChunk (dochash : String → String) (c : Chunk) : ChunkMeta :=
  let h := dochash c.text
  { id := h, hash := h, title := c.title, sectionName := c.sectionName, text := c.text }

/-- `m.get("hash")` on a `ChunkMeta`: the key is always present. -/
def chunkMetaHash (m : ChunkMeta) : Option String := Option.some m.hash

/-- The engine state touched by `ingest_chunks`: the store, the
`self._doc_titles` set (a duplicate-free list), `self._chunk_count` and
`self.metrics.total_ingests`. -/
structure MemEngine (Vec : Type) where
  store : MemStore Vec ChunkMeta
  docTitles : List String
  chunkCount : ℕ
  totalIngests : ℕ
deriving DecidableEq

/-- `set.add`: append if absent. -/
def addTitle (ts : List String) (t : String) : List String :=
  if t ∈ ts then ts else ts ++ [t]

/-- `RAGEngine.ingest_chunks` (orchestrator.py lines 241-278).  Returns
`((new_docs, new_chunks), updated engine)`; note the source computes
`new_chunks = len(metas)` — the number of chunks *processed*, not the number
the store actually inserted. -/
def ingest_chunks {Vec : Type} (embed : String → Vec) (norm : Vec → ℚ)
    (dochash : String → String) (E : MemEngine Vec) (chunks : List Chunk) :
    (ℕ × ℕ) × MemEngine Vec :=
  let metas := chunks.map (ChunkMeta.ofChunk dochash)
  let vectors := chunks.map fun c => embed c.text
  let titles := chunks.foldl (fun ts c => addTitle ts c.title) E.docTitles
  let store' := (memUpsert norm chunkMetaHash E.store vectors metas).1
  ((titles.length - E.docTitles.length, metas.length),
   { store := store', docTitles := titles,
     chunkCount := E.chunkCount + chunks.length,
     totalIngests := E.totalIngests + 1 })

/-! ## `QdrantStore` point identifiers

The id-derivation loop of `QdrantStore.upsert` (vector_store.py lines
328-348).  `uuid.UUID(pid)` follows CPython's `uuid.py`: remove every
occurrence of `urn:` and `uuid:`, strip `{`/`}` from both ends, remove all
dashes, require exactly 32 hex digits, and re-format the value as the
canonical lower-case dashed string; `str(uuid.UUID(pid))` is that canonical
form.  (Python's `int(·, 16)` also tolerates signs, underscores, `0x` and
surrounding whitespace; those exotic literal forms are not modelled.) -/

/-- A Qdrant point id: either a canonical UUID string or a number. -/
inductive PointId where
  | str (s : String) : PointId
  | num (n : Int) : PointId
deriving DecidableEq, Repr

/-- The value of a hexadecimal digit. -/
def hexDigitVal (c : Char) : Option ℕ :=
  if '0' ≤ c ∧ c ≤ '9' then Option.some (c.toNat - 48)
  else if 'a' ≤ c ∧ c ≤ 'f' then Option.some (c.toNat - 87)
  else if 'A' ≤ c ∧ c ≤ 'F' then Option.some (c.toNat - 55)
  else Option.none

/-- `s.replace(pat, '')` for a non-empty pattern `p :: ps`: remove every
(non-overlapping, leftmost-first) occurrence.  Structurally recursive on a
fuel argument so that it evaluates by reduction; each step consumes at least
one character, so any fuel at or above the list length is exact. -/
def removeOccFuel (p : Char) (ps : List Char) : ℕ → List Char → List Char
  | _, [] => []
  | 0, l => l
  | fuel + 1, c :: rest =>
    if (p :: ps).isPrefixOf (c :: rest) then removeOccFuel p ps fuel (rest.drop ps.length)
    else c :: removeOccFuel p ps fuel rest

/-- `s.replace(pat, '')` for the non-empty pattern `p :: ps`. -/
def removeOcc (p : Char) (ps : List Char) (l : List Char) : List Char :=
  removeOccFuel p ps l.length l

/-- `hex.strip('\x7b\x7d')`: drop curly braces from both ends. -/
def stripBracesEnds (l : List Char) : List Char :=
  ((l.dropWhile fun c => c == '{' || c == '}').reverse.dropWhile
    fun c => c == '{' || c == '}').reverse

/-- The cleaned hex-digit list `uuid.UUID.__init__` derives from its string
argument. -/
def uuidStripped (s : String) : List Char :=
  (stripBracesEnds (removeOcc 'u' ['u', 'i', 'd', ':']
    (removeOcc 'u' ['r', 'n', ':'] s.data))).filter fun c => c != '-'

/-- Re-insert the dashes of the canonical 8-4-4-4-12 UUID format. -/
def uuidDashFormat (l : List Char) : List Char :=
  l.take 8 ++ '-' :: ((l.drop 8).take 4) ++ '-' :: ((l.drop 12).take 4) ++
    '-' :: ((l.drop 16).take 4) ++ '-' :: l.drop 20

/-- `str(uuid.UUID(s))` when `uuid.UUID(s)` succeeds, `Option.none` when it
raises: the canonical lower-case dashed form of the 32 cleaned hex digits. -/
def uuidCanon (s : String) : Option String :=
  let h := uuidStripped s
  if h.length = 32 ∧ h.all (fun c => (hexDigitVal c).isSome) then
    Option.some (String.mk (uuidDashFormat (h.map Char.toLower)))
  else Option.none

/-- The digit values of a character list, when every character is hex. -/
def hexListVal : List Char → Option (List ℕ)
  | [] => Option.some []
  | c :: rest =>
    match hexDigitVal c, hexListVal rest with
    | Option.some d, Option.some ds => Option.some (d :: ds)
    | _, _ => Option.none

/-- `int(pid[:16], 16)` when it succeeds (vector_store.py line 340):
the value of the first 16 characters read as hex. -/
def hexPrefixVal (s : String) : Option ℕ :=
  let p := s.data.take 16
  if p.isEmpty then Option.none
  else (hexListVal p).map fun ds => ds.foldl (fun acc d => 16 * acc + d) 0

/-- The id-derivation of `QdrantStore.upsert` (vector_store.py lines 332-346)
for the resolved `pid = m.get("id") or m.get("hash")` and batch position `i`.
A Python `bool` passes `isinstance(pid, int)` and is used as the numbers 0/1. -/
def pointId (pid : PyVal) (i : ℕ) : PointId :=
  match pid with
  | .str s =>
    match uuidCanon s with
    | Option.some c => .str c
    | Option.none =>
      match hexPrefixVal s with
      | Option.some n => .num n
      | Option.none => .num i
  | .int n => .num n
  | .bool b => .num (if b then 1 else 0)
  | .none => .num i

/-- The `"id"`/`"hash"` fields of a metadata dict passed to
`QdrantStore.upsert` (the only fields its id derivation reads). -/
structure QMeta where
  idv : PyVal
  hashv : PyVal
deriving DecidableEq, Repr

/-- The point ids produced by the `for i, (v, m) in enumerate(...)` loop of
`QdrantStore.upsert`. -/
def qdrantPointIds (metas : List QMeta) : List PointId :=
  metas.enum.map fun p => pointId (pyOr p.2.idv p.2.hashv) p.1

/-! ## `QdrantStore`

vector_store.py lines 201-430.  The network client is abstracted by oracles:
`conn` for `_connect` (`QdrantClient(...)` + `get_collections`), `net` for
`_perform_search`, `up` for `_perform_upsert` — each a function from the
attempt index to the outcome of that attempt (`.error` = the call raised).
`_ensure_collection` only acts on the remote side and never changes client
state (its retry wrapper swallows failure), so it has no footprint here. -/

/-- The state of a `QdrantStore` visible to the claims: the
`service_healthy` flag and the query cache. -/
structure QStore (Vec M : Type) where
  healthy : Bool
  cache : List (CacheEntry Vec M)
deriving DecidableEq

/-- The result component of the retry executor. -/
def retryRes {V : Type} (f : ℕ → Except Unit V) (maxR : ℕ) (base maxd : ℚ) :
    Option V :=
  (retry_with_backoff f maxR base maxd).1

/-- `_initialize_client` (vector_store.py lines 231-252): healthy iff the
connection retry (5 retries, base delay 2.0) succeeded. -/
def qdrantInitHealthy (conn : ℕ → Except Unit Unit) : Bool :=
  (retryRes conn 5 2 30).isSome

/-- `QdrantStore.__init__`: fresh cache, health from `_initialize_client`. -/
def QStore.init (Vec M : Type) (conn : ℕ → Except Unit Unit) : QStore Vec M :=
  { healthy := qdrantInitHealthy conn, cache := [] }

/-- `_check_service_health` (vector_store.py lines 278-283): lazily reconnect
when unhealthy. -/
def qdrantReconnect {Vec M : Type} (conn : ℕ → Except Unit Unit)
    (S : QStore Vec M) : QStore Vec M :=
  if S.healthy then S else { S with healthy := qdrantInitHealthy conn }

/-- `QdrantStore.search` (vector_store.py lines 370-430): health check with
lazy reconnection, cache lookup, retry-wrapped remote search (2 retries, base
delay 0.5); on exhaustion flip `service_healthy` and return `[]`. -/
def qdrantSearch {Vec M : Type} [DecidableEq Vec] (conn : ℕ → Except Unit Unit)
    (net : ℕ → Except Unit (List (ℚ × M))) (S : QStore Vec M) (q : Vec)
    (k : ℕ) (t : ℚ) : List (ℚ × M) × QStore Vec M :=
  let S1 := qdrantReconnect conn S
  if !S1.healthy then ([], S1)
  else
    let c1 := cleanupCache S1.cache t
    let compute : List (ℚ × M) × QStore Vec M :=
      match retryRes net 2 (1 / 2) 30 with
      | Option.none => ([], { S1 with healthy := false, cache := c1 })
      | Option.some res =>
        (res, { S1 with cache := insertCache (evictIfFull c1) (q, k) (res, t) })
    match lookupCache c1 (q, k) with
    | Option.some (res, ts) =>
      if cacheValid t ts then (res, { S1 with cache := c1 }) else compute
    | Option.none => compute

/-- `QdrantStore.upsert` (vector_store.py lines 316-368): raise when the
service is unavailable, otherwise build the points and run the retry-wrapped
remote upsert (3 retries, base delay 1.0); on exhaustion flip
`service_healthy` and raise; on success clear the query cache.
`Except.error` is the `RuntimeError` the caller observes. -/
def qdrantUpsert {Vec M : Type} (conn : ℕ → Except Unit Unit)
    (up : List PointId → ℕ → Except Unit Unit) (S : QStore Vec M)
    (metas : List QMeta) : Except Unit Unit × QStore Vec M :=
  let S1 := qdrantReconnect conn S
  if !S1.healthy then (Except.error (), S1)
  else
    match retryRes (up (qdrantPointIds metas)) 3 1 30 with
    | Option.none => (Except.error (), { S1 with healthy := false })
    | Option.some _ => (Except.ok (), { S1 with cache := [] })

/-! ## Orchestrator health aggregation

orchestrator.py lines 92-239. -/

/-- One `self.service_status[...]` record: `{"healthy": ..., "type": ...,
"degraded": ...}`. -/
structure HealthRecord where
  healthy : Bool
  kind : String
  degraded : Bool
deriving DecidableEq, Repr

/-- The vector-store clause of `_build_status_message` (lines 224-228). -/
def vsClause (vs : HealthRecord) : String :=
  if vs.kind == "memory" then "Vector search is using local storage (slower performance)"
  else "Vector search service experiencing issues"

/-- The LLM clause of `_build_status_message` (lines 230-234). -/
def llmClause (llm : HealthRecord) : String :=
  if llm.kind == "stub" then "AI responses are using basic mode (reduced quality)"
  else "AI generation service experiencing issues"

/-- The `degraded_services` list of `_build_status_message` (lines 220-234):
one clause appended per degraded service, vector store first. -/
def statusClauses (vs llm : HealthRecord) : List String :=
  (if vs.degraded then [vsClause vs] else []) ++
    (if llm.degraded then [llmClause llm] else [])

/-- `_build_status_message` (orchestrator.py lines 220-239). -/
def buildStatusMessage (vs llm : HealthRecord) : String :=
  let cs := statusClauses vs llm
  if cs.isEmpty then "All systems operational"
  else "⚠️ System running in degraded mode: " ++ String.intercalate "; " cs

/-- The dict returned by `get_service_status` (orchestrator.py lines 211-218). -/
structure ServiceStatus where
  vs : HealthRecord
  llm : HealthRecord
  anyDegraded : Bool
  allHealthy : Bool
  statusMessage : String
deriving DecidableEq, Repr

/-- `get_service_status`: `any(...)`/`all(...)` over the two records plus the
status message. -/
def getServiceStatus (vs llm : HealthRecord) : ServiceStatus :=
  { vs := vs, llm := llm
    anyDegraded := vs.degraded || llm.degraded
    allHealthy := vs.healthy && llm.healthy
    statusMessage := buildStatusMessage vs llm }

/-- The engine state relevant to health reporting when the vector store is a
`QdrantStore`: the store itself plus the `service_status` records that
`_initialize_vector_store` / `_initialize_llm_provider` wrote at
construction time (orchestrator.py lines 101-157). -/
structure QEngine (Vec M : Type) where
  store : QStore Vec M
  vsStatus : HealthRecord
  llmStatus : HealthRecord
deriving DecidableEq

/-- `_initialize_vector_store` for a `QdrantStore` (orchestrator.py lines
144-150): the record snapshots `store.service_healthy` at construction. -/
def QEngine.init {Vec M : Type} (S : QStore Vec M) (llmStatus : HealthRecord) :
    QEngine Vec M :=
  { store := S
    vsStatus := { healthy := S.healthy, kind := "qdrant", degraded := !S.healthy }
    llmStatus := llmStatus }

/-- `RAGEngine.retrieve`'s store access (orchestrator.py line 293): runs the
store's `search` and keeps the engine's `service_status` records untouched. -/
def qengineSearch {Vec M : Type} [DecidableEq Vec] (conn : ℕ → Except Unit Unit)
    (net : ℕ → Except Unit (List (ℚ × M))) (E : QEngine Vec M) (q : Vec)
    (k : ℕ) (t : ℚ) : List (ℚ × M) × QEngine Vec M :=
  let r := qdrantSearch conn net E.store q k t
  (r.1, { E with store := r.2 })

/-- `get_service_status` read off a `QEngine`. -/
def QEngine.status {Vec M : Type} (E : QEngine Vec M) : ServiceStatus :=
  getServiceStatus E.vsStatus E.llmStatus

/-! ## The deduplication invariant of the in-memory store -/

/-- The truthy content hashes of the stored metadata, in storage order:
the entries `InMemoryStore.upsert`'s deduplication applies to. -/
def truthyHashes {Vec M : Type} (hashOf : M → Option String)
    (S : MemStore Vec M) : List String :=
  S.meta.filterMap fun m =>
    match hashOf m with
    | Option.some s => if s = "" then Option.none else Option.some s
    | Option.none => Option.none

/-- The store invariant behind deduplication: every stored truthy hash has
been recorded in `self._hashes`, and the stored truthy hashes are pairwise
distinct. -/
def HashInv {Vec M : Type} (hashOf : M → Option String)
    (S : MemStore Vec M) : Prop :=
  (∀ s ∈ truthyHashes hashOf S, s ∈ S.hashes) ∧ (truthyHashes hashOf S).Nodup

/-! # Theorems -/

/-! ## The retry executor -/

/-- When every attempt raises, the loop runs all its iterations and sleeps the
backoff schedule between consecutive attempts. -/
theorem retryLoop_all_fail {V : Type} (f : ℕ → Except Unit V) (base maxd : ℚ)
    (hf : ∀ n, f n = Except.error ()) :
    ∀ rem attempt, retryLoop f base maxd rem attempt =
      (Option.none, rem, (List.range (rem - 1)).map fun i => backoffDelay base maxd (attempt + i))
  | 0, _ => by simp [retryLoop]
  | rem + 1, attempt => by
    rw [retryLoop, hf attempt]
    cases rem with
    | zero => simp
    | succ r =>
      rw [if_neg (Nat.succ_ne_zero r)]
      rw [retryLoop_all_fail f base maxd hf (r + 1) (attempt + 1)]
      simp only [Nat.add_sub_cancel]
      refine Prod.ext rfl (Prod.ext rfl ?_)
      rw [List.range_succ_eq_map, List.map_cons, List.map_map]
      simp only [Nat.add_zero]
      refine congrArg (backoffDelay base maxd attempt :: ·) ?_
      refine List.map_congr_left fun i _ => ?_
      simp only [Function.comp_apply]
      exact congrArg (backoffDelay base maxd) (by omega)

/-- When the first success happens `off` attempts after the current one, the
loop stops there and returns that attempt's result. -/
theorem retryLoop_first_success {V : Type} (f : ℕ → Except Unit V)
    (base maxd : ℚ) (v : V) :
    ∀ rem off attempt, f (attempt + off) = Except.ok v →
      (∀ i, i < off → f (attempt + i) = Except.error ()) → off < rem →
      retryLoop f base maxd rem attempt =
        (Option.some v, off + 1, (List.range off).map fun i => backoffDelay base maxd (attempt + i))
  | 0, off, _ => fun _ _ h => absurd h (Nat.not_lt_zero off)
  | rem + 1, 0, attempt => fun hok _ _ => by
    rw [retryLoop]
    rw [Nat.add_zero] at hok
    rw [hok]
    simp
  | rem + 1, off + 1, attempt => fun hok hfail hlt => by
    have h0 : f attempt = Except.error () := by
      have := hfail 0 (Nat.succ_pos off)
      rwa [Nat.add_zero] at this
    rw [retryLoop, h0]
    cases rem with
    | zero => omega
    | succ r =>
      rw [if_neg (Nat.succ_ne_zero r)]
      rw [retryLoop_first_success f base maxd v (r + 1) off (attempt + 1)
        (by rw [show attempt + 1 + off = attempt + (off + 1) by omega]; exact hok)
        (fun i hi => by
          rw [show attempt + 1 + i = attempt + (i + 1) by omega]
          exact hfail (i + 1) (by omega))
        (by omega)]
      refine Prod.ext rfl (Prod.ext rfl ?_)
      rw [List.range_succ_eq_map, List.map_cons, List.map_map]
      simp only [Nat.add_zero]
      refine congrArg (backoffDelay base maxd attempt :: ·) ?_
      refine List.map_congr_left fun i _ => ?_
      simp only [Function.comp_apply]
      exact congrArg (backoffDelay base maxd) (by omega)

/-- C3: an always-failing operation is invoked exactly `max_retries + 1` times
with inter-attempt delays `min(base_delay * 2^attempt, max_delay)` for
`attempt = 0, 1, ...`, and exhaustion is reported as the value `None` rather
than by raising; an operation that first succeeds on attempt `j` is invoked
exactly `j + 1` times and its result is returned. -/
theorem retry_backoff_policy (f g : ℕ → Except Unit PyVal) (maxR : ℕ)
    (base maxd : ℚ) (j : ℕ) (v : PyVal)
    (hf : ∀ n, f n = Except.error ())
    (hgj : g j = Except.ok v) (hgi : ∀ i, i < j → g i = Except.error ())
    (hj : j ≤ maxR) :
    retryPy f maxR base maxd =
      (PyVal.none, maxR + 1, (List.range maxR).map fun i => backoffDelay base maxd i)
    ∧ retryPy g maxR base maxd =
      (v, j + 1, (List.range j).map fun i => backoffDelay base maxd i) := by
  constructor
  · show (let r := retry_with_backoff f maxR base maxd; (r.1.getD PyVal.none, r.2)) = _
    rw [retry_with_backoff, retryLoop_all_fail f base maxd hf (maxR + 1) 0]
    simp [Nat.zero_add]
  · show (let r := retry_with_backoff g maxR base maxd; (r.1.getD PyVal.none, r.2)) = _
    rw [retry_with_backoff,
      retryLoop_first_success g base maxd v (maxR + 1) j 0
        (by rwa [Nat.zero_add]) (fun i hi => by rw [Nat.zero_add]; exact hgi i hi)
        (by omega)]
    simp [Nat.zero_add]

/-- Witness for C3 at concrete inputs (`max_retries = 3`, `base_delay = 16`,
`max_delay = 30`, so the delay cap binds from the second delay on). -/
theorem retry_backoff_policy_witness :
    retryPy (fun _ => Except.error ()) 3 16 30 = (PyVal.none, 4, [16, 30, 30])
    ∧ retryPy (fun _ => Except.ok (PyVal.int 7)) 3 16 30 = (PyVal.int 7, 1, []) := by
  have h := retry_backoff_policy (fun _ => Except.error ())
    (fun _ => Except.ok (PyVal.int 7)) 3 16 30 0 (PyVal.int 7)
    (fun _ => rfl) rfl (fun i hi => absurd hi (Nat.not_lt_zero i)) (by omega)
  refine ⟨?_, ?_⟩
  · rw [h.1]
    norm_num [backoffDelay, List.range_succ, min_def]
  · rw [h.2]
    norm_num

/-- C9: the retry executor returns the value `None` both when every attempt
raises and when the wrapped operation successfully returns `None`, so a caller
cannot tell the two apart; in particular the `result is None` test that
`QdrantStore.upsert` uses to detect failure flags such a success as a failure. -/
theorem retry_none_indistinguishable (f g : ℕ → Except Unit PyVal) (maxR : ℕ)
    (base maxd : ℚ)
    (hf : ∀ n, f n = Except.error ())
    (hg : ∀ n, g n = Except.ok PyVal.none) :
    (retryPy f maxR base maxd).1 = PyVal.none
    ∧ (retryPy g maxR base maxd).1 = PyVal.none
    ∧ (retryPy f maxR base maxd).1 = (retryPy g maxR base maxd).1
    ∧ upsertFailedCheck (retryPy f maxR base maxd).1 = true
    ∧ upsertFailedCheck (retryPy g maxR base maxd).1 = true := by
  have h1 : (retryPy f maxR base maxd).1 = PyVal.none := by
    show ((retry_with_backoff f maxR base maxd).1.getD PyVal.none, _).1 = _
    rw [retry_with_backoff, retryLoop_all_fail f base maxd hf (maxR + 1) 0]
    rfl
  have h2 : (retryPy g maxR base maxd).1 = PyVal.none := by
    show ((retry_with_backoff g maxR base maxd).1.getD PyVal.none, _).1 = _
    rw [retry_with_backoff,
      retryLoop_first_success g base maxd PyVal.none (maxR + 1) 0 0
        (hg 0) (fun i hi => absurd hi (Nat.not_lt_zero i)) (by omega)]
    rfl
  exact ⟨h1, h2, h1.trans h2.symm, by rw [h1]; rfl, by rw [h2]; rfl⟩

/-- Witness for C9 at concrete inputs. -/
theorem retry_none_indistinguishable_witness :
    (retryPy (fun _ => Except.error ()) 3 1 30).1 = PyVal.none
    ∧ (retryPy (fun _ => Except.ok PyVal.none) 3 1 30).1 = PyVal.none
    ∧ (retryPy (fun _ => Except.error ()) 3 1 30).1
        = (retryPy (fun _ => Except.ok PyVal.none) 3 1 30).1
    ∧ upsertFailedCheck (retryPy (fun _ => Except.error ()) 3 1 30).1 = true
    ∧ upsertFailedCheck (retryPy (fun _ => Except.ok PyVal.none) 3 1 30).1 = true :=
  retry_none_indistinguishable (fun _ => Except.error ())
    (fun _ => Except.ok PyVal.none) 3 1 30 (fun _ => rfl) (fun _ => rfl)

/-! ## Top-k selection: `topkIdx` equals the brute-force stable ranking -/

/-- Reading a list back off its indices. -/
theorem map_getD_range {α : Type} (l : List α) (d : α) :
    (List.range l.length).map (fun i => l.getD i d) = l := by
  apply List.ext_getElem
  · simp
  · intro i h1 h2
    simp only [List.getElem_map, List.getElem_range]
    exact List.getD_eq_getElem l d h2

/-- In a list sorted by a relation along which a predicate is downward closed,
the elements satisfying the predicate form a prefix. -/
theorem filter_eq_takeWhile_of_sorted {α : Type} {r : α → α → Prop} {p : α → Bool}
    (hmono : ∀ a b, r a b → p b = true → p a = true) :
    ∀ {l : List α}, l.Pairwise r → l.filter p = l.takeWhile p := by
  intro l hl
  induction l with
  | nil => rfl
  | cons a l ih =>
    rcases List.pairwise_cons.mp hl with ⟨ha, hl'⟩
    by_cases hp : p a = true
    · rw [List.filter_cons_of_pos hp, List.takeWhile_cons_of_pos hp, ih hl']
    · rw [List.filter_cons_of_neg hp, List.takeWhile_cons_of_neg hp]
      exact List.filter_eq_nil_iff.mpr fun b hb hpb =>
        hp (hmono a b (ha b hb) hpb)

/-- On a strictly increasing index list, positions compare like the indices
they hold. -/
theorem pairwise_lt_getD_le_iff {l : List ℕ} (hl : l.Pairwise (· < ·))
    {i j : ℕ} (hi : i < l.length) (hj : j < l.length) :
    l.getD i 0 ≤ l.getD j 0 ↔ i ≤ j := by
  rw [List.getD_eq_getElem l 0 hi, List.getD_eq_getElem l 0 hj]
  constructor
  · intro h
    by_contra hc
    push_neg at hc
    have := List.pairwise_iff_get.mp hl ⟨j, hj⟩ ⟨i, hi⟩ hc
    simp only [List.get_eq_getElem] at this
    omega
  · intro h
    rcases Nat.eq_or_lt_of_le h with rfl | hlt
    · exact le_rfl
    · have := List.pairwise_iff_get.mp hl ⟨i, hi⟩ ⟨j, hj⟩ hlt
      simp only [List.get_eq_getElem] at this
      omega

theorem length_argsortDesc (xs : List ℚ) : (argsortDesc xs).length = xs.length := by
  rw [argsortDesc, (List.perm_insertionSort _ _).length_eq, List.length_range]

theorem argsortDesc_perm (xs : List ℚ) :
    (argsortDesc xs).Perm (List.range xs.length) :=
  List.perm_insertionSort _ _

theorem argsortDesc_sorted (xs : List ℚ) :
    List.Sorted (idxLe xs) (argsortDesc xs) :=
  List.sorted_insertionSort _ _

/-- At least `k` scores are at or above the `np.partition` threshold. -/
theorem countP_ge_kth (xs : List ℚ) (k : ℕ) (h1 : 1 ≤ k) (hk : k < xs.length) :
    k ≤ (List.range xs.length).countP
      (fun i => decide (kthPartitionVal xs k ≤ xs.getD i 0)) := by
  set th := kthPartitionVal xs k with hth
  have hcnt : (List.range xs.length).countP (fun i => decide (th ≤ xs.getD i 0))
      = xs.countP (fun v => decide (th ≤ v)) := by
    have := List.countP_map (fun v => decide (th ≤ v)) (fun i => xs.getD i 0)
      (List.range xs.length)
    rw [map_getD_range xs 0] at this
    rw [this]
    rfl
  rw [hcnt]
  set sAsc := List.insertionSort (· ≤ ·) xs with hsAsc
  have hperm : sAsc.Perm xs := List.perm_insertionSort _ _
  have hlen : sAsc.length = xs.length := hperm.length_eq
  rw [← hperm.countP_eq]
  have hmod : (xs.length - k) % xs.length = xs.length - k :=
    Nat.mod_eq_of_lt (by omega)
  have hpos : xs.length - k < sAsc.length := by omega
  have hthv : th = sAsc.getD (xs.length - k) 0 := by
    rw [hth, kthPartitionVal, hmod, ← hsAsc]
  have hsorted : List.Sorted (· ≤ ·) sAsc := List.sorted_insertionSort _ _
  have hdrop : (sAsc.drop (xs.length - k)).countP (fun v => decide (th ≤ v))
      = (sAsc.drop (xs.length - k)).length := by
    apply List.countP_eq_length.mpr
    intro a ha
    rcases List.mem_iff_getElem.mp ha with ⟨j, hjl, hja⟩
    have hidx : xs.length - k + j < sAsc.length := by
      have := List.length_drop (xs.length - k) sAsc
      omega
    have hget : a = sAsc[xs.length - k + j] := by
      rw [← hja, List.getElem_drop]
    have hle : sAsc[xs.length - k] ≤ sAsc[xs.length - k + j] := by
      have h2 : (⟨xs.length - k, hpos⟩ : Fin sAsc.length) ≤ ⟨xs.length - k + j, hidx⟩ := by
        rw [Fin.mk_le_mk]
        exact Nat.le_add_right _ _
      have := hsorted.get_mono h2
      simpa [List.get_eq_getElem] using this
    rw [hget, decide_eq_true_eq, hthv, List.getD_eq_getElem sAsc 0 hpos]
    exact hle
  have hsplit : sAsc.countP (fun v => decide (th ≤ v))
      = (sAsc.take (xs.length - k)).countP (fun v => decide (th ≤ v))
        + (sAsc.drop (xs.length - k)).countP (fun v => decide (th ≤ v)) := by
    rw [← List.countP_append, List.take_append_drop]
  rw [hsplit, hdrop, List.length_drop]
  omega

/-- The `argpartition`-based selection of `InMemoryStore.search` picks exactly
the first `k` entries of the full stable descending argsort. -/
theorem topkIdx_eq (xs : List ℚ) (k : ℕ) (hk : k ≤ xs.length) :
    topkIdx xs k = (argsortDesc xs).take k := by
  rw [topkIdx, topkIdxWith]
  by_cases hle : xs.length ≤ k
  · rw [if_pos hle, List.take_of_length_le (by rw [length_argsortDesc]; exact hle)]
  · rw [if_neg hle]
    push_neg at hle
    rcases Nat.eq_zero_or_pos k with rfl | hk1
    · simp
    have hpred : candIdx xs k = (List.range xs.length).filter
        (fun i => decide (kthPartitionVal xs k ≤ xs.getD i 0)) := rfl
    generalize hpd : (fun i => decide (kthPartitionVal xs k ≤ xs.getD i 0)) = pred at hpred
    have hpredth : ∀ i, pred i = true ↔ kthPartitionVal xs k ≤ xs.getD i 0 := by
      intro i
      rw [← hpd, decide_eq_true_eq]
    have hcands_lt : (candIdx xs k).Pairwise (· < ·) := by
      rw [hpred]
      exact (List.pairwise_lt_range xs.length).filter _
    have hlenmap : ((candIdx xs k).map fun i => xs.getD i 0).length
        = (candIdx xs k).length := List.length_map _ _
    have hcompat : ∀ a ∈ List.range ((candIdx xs k).map fun i => xs.getD i 0).length,
        ∀ b ∈ List.range ((candIdx xs k).map fun i => xs.getD i 0).length,
        idxLe ((candIdx xs k).map fun i => xs.getD i 0) a b
          ↔ idxLe xs ((candIdx xs k).getD a 0) ((candIdx xs k).getD b 0) := by
      intro a ha b hb
      rw [List.mem_range, hlenmap] at ha hb
      have hva : ((candIdx xs k).map fun i => xs.getD i 0).getD a 0
          = xs.getD ((candIdx xs k).getD a 0) 0 := by
        rw [List.getD_eq_getElem _ 0 (by rw [hlenmap]; exact ha), List.getElem_map,
          List.getD_eq_getElem _ 0 ha]
      have hvb : ((candIdx xs k).map fun i => xs.getD i 0).getD b 0
          = xs.getD ((candIdx xs k).getD b 0) 0 := by
        rw [List.getD_eq_getElem _ 0 (by rw [hlenmap]; exact hb), List.getElem_map,
          List.getD_eq_getElem _ 0 hb]
      rw [idxLe, idxLe, hva, hvb]
      exact or_congr Iff.rfl (and_congr Iff.rfl
        (pairwise_lt_getD_le_iff hcands_lt ha hb).symm)
    have hmap : (argsortDesc ((candIdx xs k).map fun i => xs.getD i 0)).map
        (fun j => (candIdx xs k).getD j 0) = List.insertionSort (idxLe xs) (candIdx xs k) := by
      rw [argsortDesc, List.map_insertionSort _ (idxLe xs) _ _ hcompat]
      rw [hlenmap, map_getD_range (candIdx xs k) 0]
    have hsort_cands : List.insertionSort (idxLe xs) (candIdx xs k)
        = (argsortDesc xs).filter pred := by
      refine List.eq_of_perm_of_sorted ?_ (List.sorted_insertionSort _ _)
        ((argsortDesc_sorted xs).filter pred)
      refine (List.perm_insertionSort _ _).trans ?_
      rw [hpred]
      exact ((argsortDesc_perm xs).filter pred).symm
    have hfilter : (argsortDesc xs).filter pred = (argsortDesc xs).takeWhile pred := by
      refine filter_eq_takeWhile_of_sorted ?_ (argsortDesc_sorted xs)
      intro a b hab hpb
      rw [hpredth] at hpb ⊢
      rcases hab with h | ⟨he, _⟩
      · exact hpb.trans h.le
      · exact he ▸ hpb
    have hklen : k ≤ ((argsortDesc xs).takeWhile pred).length := by
      rw [← hfilter, ← List.countP_eq_length_filter, (argsortDesc_perm xs).countP_eq,
        ← hpd]
      exact countP_ge_kth xs k hk1 hle
    calc ((argsortDesc ((candIdx xs k).map fun i => xs.getD i 0)).take k).map
          (fun j => (candIdx xs k).getD j 0)
        = ((argsortDesc ((candIdx xs k).map fun i => xs.getD i 0)).map
            (fun j => (candIdx xs k).getD j 0)).take k := List.map_take _ _ k
      _ = (List.insertionSort (idxLe xs) (candIdx xs k)).take k := by rw [hmap]
      _ = ((argsortDesc xs).takeWhile pred).take k := by rw [hsort_cands, hfilter]
      _ = (argsortDesc xs).take k := by
          conv_rhs => rw [← List.takeWhile_append_dropWhile pred (argsortDesc xs)]
          rw [List.take_append_of_le_length hklen]

/-- `enum` as a map over positions. -/
theorem enum_eq_map_range (xs : List ℚ) :
    xs.enum = (List.range xs.length).map fun i => (i, xs.getD i 0) := by
  apply List.ext_getElem
  · simp
  · intro i h1 h2
    have hi : i < xs.length := by simpa using h2
    rw [List.getElem_enum, List.getElem_map, List.getElem_range,
      List.getD_eq_getElem xs 0 hi]

/-- The spec-side stable ranking of `(position, score)` pairs is the stable
argsort decorated with its scores. -/
theorem insertionSort_pairOrd_eq (xs : List ℚ) :
    List.insertionSort pairOrd xs.enum
      = (argsortDesc xs).map fun i => (i, xs.getD i 0) := by
  refine List.eq_of_perm_of_sorted ?_ (List.sorted_insertionSort _ _) ?_
  · refine (List.perm_insertionSort _ _).trans ?_
    rw [enum_eq_map_range]
    exact (((argsortDesc_perm xs).map _)).symm
  · refine List.Pairwise.map _ ?_ (argsortDesc_sorted xs)
    intro a b hab
    rcases hab with h | ⟨he, hle⟩
    · exact Or.inl h
    · exact Or.inr ⟨he, hle⟩

/-- With up-to-date precomputed norms the score list is the per-vector score. -/
theorem simsOf_map_norm {Vec : Type} (dot : Vec → Vec → ℚ) (norm : Vec → ℚ)
    (vecs : List Vec) (q : Vec) :
    simsOf dot norm vecs (vecs.map norm) q
      = vecs.map fun v => dot v q / (norm v * (norm q + eps) + eps) := by
  rw [simsOf]
  have h : vecs.zip (vecs.map norm) = vecs.map fun v => (v, norm v) := by
    calc vecs.zip (vecs.map norm) = (vecs.map id).zip (vecs.map norm) := by
          rw [List.map_id]
      _ = vecs.map fun v => (id v, norm v) := List.zip_map' id norm vecs
  rw [h, List.map_map]
  rfl

/-- `topkIdx` is the argpartition pipeline at the stable argsort. -/
theorem topkIdxWith_argsortDesc (xs : List ℚ) (k : ℕ) :
    topkIdxWith argsortDesc xs k = topkIdx xs k := rfl

/-- The optimized compute path of `search` coincides with the spec's
brute-force stable top-k. -/
theorem searchComputeRes_eq_brute {Vec M : Type} [Inhabited M]
    (dot : Vec → Vec → ℚ) (norm : Vec → ℚ) (vecs : List Vec) (meta : List M)
    (q : Vec) (k : ℕ) (hk : k ≤ vecs.length) :
    searchComputeRes dot norm vecs (vecs.map norm) meta q k
      = bruteForceTopK dot norm vecs meta q k := by
  simp only [searchComputeRes, searchComputeResWith, bruteForceTopK]
  rw [simsOf_map_norm, topkIdxWith_argsortDesc]
  have hkx : k ≤ (vecs.map fun v => dot v q / (norm v * (norm q + eps) + eps)).length := by
    rw [List.length_map]
    exact hk
  rw [topkIdx_eq _ _ hkx, insertionSort_pairOrd_eq]
  rw [← List.map_take, List.map_map]
  rfl

theorem cleanupCache_nil {Vec M : Type} [DecidableEq Vec] (t : ℚ) :
    cleanupCache ([] : List (CacheEntry Vec M)) t = [] := rfl

theorem lookupCache_nil {Vec M : Type} [DecidableEq Vec] (key : Vec × ℕ) :
    lookupCache ([] : List (CacheEntry Vec M)) key = Option.none := rfl

theorem simsOf_length {Vec : Type} (dot : Vec → Vec → ℚ) (norm : Vec → ℚ)
    (vecs : List Vec) (q : Vec) :
    (simsOf dot norm vecs (vecs.map norm) q).length = vecs.length := by
  rw [simsOf, List.length_map, List.length_zip, List.length_map, min_self]

theorem searchComputeRes_length {Vec M : Type} [Inhabited M]
    (dot : Vec → Vec → ℚ) (norm : Vec → ℚ) (vecs : List Vec) (meta : List M)
    (q : Vec) (k : ℕ) (hk : k ≤ vecs.length) :
    (searchComputeRes dot norm vecs (vecs.map norm) meta q k).length = k := by
  simp only [searchComputeRes, searchComputeResWith]
  have hkx : k ≤ (simsOf dot norm vecs (vecs.map norm) q).length := by
    rw [simsOf_length]
    exact hk
  rw [List.length_map, topkIdxWith_argsortDesc, topkIdx_eq _ _ hkx,
    List.length_take, length_argsortDesc, simsOf_length]
  omega

theorem searchComputeRes_sorted {Vec M : Type} [Inhabited M]
    (dot : Vec → Vec → ℚ) (norm : Vec → ℚ) (vecs : List Vec) (meta : List M)
    (q : Vec) (k : ℕ) (hk : k ≤ vecs.length) :
    List.Sorted (· ≥ ·)
      ((searchComputeRes dot norm vecs (vecs.map norm) meta q k).map Prod.fst) := by
  simp only [searchComputeRes, searchComputeResWith]
  have hkx : k ≤ (simsOf dot norm vecs (vecs.map norm) q).length := by
    rw [simsOf_length]
    exact hk
  rw [topkIdxWith_argsortDesc, topkIdx_eq _ _ hkx, List.map_map]
  refine List.Pairwise.map _ ?_
    (List.Pairwise.sublist (List.take_sublist k _) (argsortDesc_sorted _))
  intro a b hab
  rcases hab with h | ⟨he, _⟩
  · exact le_of_lt h
  · show _ ≥ _
    exact ge_of_eq (show ((simsOf dot norm vecs (vecs.map norm) q).getD a 0) = _ from he)

/-! ## Top-k through an arbitrary admissible argsort -/

/-- The stable argsort satisfies the documented `np.argsort` contract. -/
theorem argsortDesc_spec : ArgsortSpec argsortDesc := by
  intro xs
  exact ⟨argsortDesc_perm xs,
    List.Pairwise.imp (fun hab => hab.elim le_of_lt fun hp => le_of_eq hp.1.symm)
      (argsortDesc_sorted xs)⟩

theorem argsortDescAnti_perm (xs : List ℚ) :
    (argsortDescAnti xs).Perm (List.range xs.length) :=
  List.perm_insertionSort _ _

theorem argsortDescAnti_sorted (xs : List ℚ) :
    List.Sorted (idxLeAnti xs) (argsortDescAnti xs) :=
  List.sorted_insertionSort _ _

/-- The anti-stable argsort also satisfies the documented contract: nothing
in the source can distinguish it from any other tie order of
`np.argsort`'s default (unstable) sort. -/
theorem argsortDescAnti_spec : ArgsortSpec argsortDescAnti := by
  intro xs
  exact ⟨argsortDescAnti_perm xs,
    List.Pairwise.imp (fun hab => hab.elim le_of_lt fun hp => le_of_eq hp.1.symm)
      (argsortDescAnti_sorted xs)⟩

/-- Indices produced by an admissible argsort are positions into `xs`. -/
theorem mem_argsort_lt (f : List ℚ → List ℕ) (hf : ArgsortSpec f) (xs : List ℚ)
    {i : ℕ} (hi : i ∈ f xs) : i < xs.length :=
  List.mem_range.mp ((hf xs).1.mem_iff.mp hi)

/-- Any admissible argsort reads the scores off in the same non-increasing
order as the stable one: the score sequence is fully determined. -/
theorem argsort_map_val (f : List ℚ → List ℕ) (hf : ArgsortSpec f) (xs : List ℚ) :
    (f xs).map (fun i => xs.getD i 0)
      = (argsortDesc xs).map (fun i => xs.getD i 0) := by
  have hs1 : List.Sorted (· ≥ ·) ((f xs).map (fun i => xs.getD i 0)) := by
    refine List.Pairwise.map _ ?_ (hf xs).2
    intro a b h
    exact h
  have hs2 : List.Sorted (· ≥ ·) ((argsortDesc xs).map (fun i => xs.getD i 0)) := by
    refine List.Pairwise.map _ ?_ (argsortDesc_sorted xs)
    intro a b hab
    rcases hab with h | ⟨he, _⟩
    · exact le_of_lt h
    · exact le_of_eq he.symm
  exact List.eq_of_perm_of_sorted
    (((hf xs).1.map _).trans (((argsortDesc_perm xs).map _).symm)) hs1 hs2

/-- Mapping with a function injective across two lists is cancellable. -/
theorem map_inj_on_eq {α β : Type} (g : α → β) :
    ∀ (l1 l2 : List α), (∀ a ∈ l1, ∀ b ∈ l2, g a = g b → a = b) →
      l1.map g = l2.map g → l1 = l2 := by
  intro l1
  induction l1 with
  | nil =>
    intro l2 _ h
    cases l2 with
    | nil => rfl
    | cons b l2 => simp at h
  | cons a l1 ih =>
    intro l2 hinj h
    cases l2 with
    | nil => simp at h
    | cons b l2 =>
      simp only [List.map_cons, List.cons.injEq] at h
      have hab : a = b := hinj a (List.mem_cons_self a l1) b (List.mem_cons_self b l2) h.1
      subst hab
      rw [ih l2 (fun x hx y hy => hinj x (List.mem_cons_of_mem _ hx)
        y (List.mem_cons_of_mem _ hy)) h.2]

/-- `getD` through a `map`, inside the table's bounds. -/
theorem getD_map_getD (c : List ℕ) (xs : List ℚ) {j : ℕ} (hj : j < c.length) :
    (c.map fun i => xs.getD i 0).getD j 0 = xs.getD (c.getD j 0) 0 := by
  rw [List.getD_eq_getElem (c.map fun i => xs.getD i 0) 0
      (by rw [List.length_map]; exact hj),
    List.getElem_map, List.getD_eq_getElem c 0 hj]

/-- Reading scores through the candidate-index table. -/
theorem map_getD_comp (c : List ℕ) (xs : List ℚ) (l : List ℕ)
    (hl : ∀ j ∈ l, j < c.length) :
    (l.map fun j => c.getD j 0).map (fun i => xs.getD i 0)
      = l.map fun j => (c.map fun i => xs.getD i 0).getD j 0 := by
  rw [List.map_map]
  refine List.map_congr_left ?_
  intro j hj
  show xs.getD (c.getD j 0) 0 = (c.map fun i => xs.getD i 0).getD j 0
  exact (getD_map_getD c xs (hl j hj)).symm

/-- The argpartition pipeline yields the same score sequence for every
admissible argsort implementation. -/
theorem topkIdxWith_map_val (f : List ℚ → List ℕ) (hf : ArgsortSpec f)
    (xs : List ℚ) (k : ℕ) :
    (topkIdxWith f xs k).map (fun i => xs.getD i 0)
      = (topkIdx xs k).map (fun i => xs.getD i 0) := by
  rw [topkIdx, topkIdxWith, topkIdxWith]
  by_cases hle : xs.length ≤ k
  · rw [if_pos hle, if_pos hle]
    exact argsort_map_val f hf xs
  · rw [if_neg hle, if_neg hle]
    have hmemf : ∀ j ∈ (f ((candIdx xs k).map fun i => xs.getD i 0)).take k,
        j < (candIdx xs k).length := by
      intro j hj
      have h := mem_argsort_lt f hf ((candIdx xs k).map fun i => xs.getD i 0)
        (List.take_subset _ _ hj)
      rwa [List.length_map] at h
    have hmemg : ∀ j ∈ (argsortDesc ((candIdx xs k).map fun i => xs.getD i 0)).take k,
        j < (candIdx xs k).length := by
      intro j hj
      have h := mem_argsort_lt argsortDesc argsortDesc_spec
        ((candIdx xs k).map fun i => xs.getD i 0) (List.take_subset _ _ hj)
      rwa [List.length_map] at h
    rw [map_getD_comp (candIdx xs k) xs _ hmemf,
      map_getD_comp (candIdx xs k) xs _ hmemg,
      List.map_take, List.map_take, argsort_map_val f hf]

/-- For any admissible argsort the selected indices are pairwise-distinct
positions into the score list. -/
theorem topkIdxWith_nodup_lt (f : List ℚ → List ℕ) (hf : ArgsortSpec f)
    (xs : List ℚ) (k : ℕ) :
    (topkIdxWith f xs k).Nodup ∧ ∀ i ∈ topkIdxWith f xs k, i < xs.length := by
  rw [topkIdxWith]
  by_cases hle : xs.length ≤ k
  · rw [if_pos hle]
    exact ⟨((hf xs).1.nodup_iff).mpr (List.nodup_range _),
      fun i hi => mem_argsort_lt f hf xs hi⟩
  · rw [if_neg hle]
    have hcnodup : (candIdx xs k).Nodup := (List.nodup_range xs.length).filter _
    have hclt : ∀ x ∈ candIdx xs k, x < xs.length := by
      intro x hx
      exact List.mem_range.mp (List.mem_filter.mp hx).1
    have hbound : ∀ j ∈ (f ((candIdx xs k).map fun i => xs.getD i 0)).take k,
        j < (candIdx xs k).length := by
      intro j hj
      have h := mem_argsort_lt f hf ((candIdx xs k).map fun i => xs.getD i 0)
        (List.take_subset _ _ hj)
      rwa [List.length_map] at h
    constructor
    · refine List.Nodup.map_on ?_ ?_
      · intro x hx y hy hxy
        have hx' := hbound x hx
        have hy' := hbound y hy
        rw [List.getD_eq_getElem _ 0 hx', List.getD_eq_getElem _ 0 hy'] at hxy
        exact (hcnodup.getElem_inj_iff).mp hxy
      · exact (((hf _).1.nodup_iff).mpr (List.nodup_range _)).sublist
          (List.take_sublist _ _)
    · intro i hi
      rcases List.mem_map.mp hi with ⟨j, hj, rfl⟩
      have hj' := hbound j hj
      refine hclt _ ?_
      rw [List.getD_eq_getElem _ 0 hj']
      exact List.mem_iff_getElem.mpr ⟨j, hj', rfl⟩

/-- With pairwise-distinct scores the selection does not depend on the
argsort implementation. -/
theorem topkIdxWith_eq_of_nodup (f : List ℚ → List ℕ) (hf : ArgsortSpec f)
    (xs : List ℚ) (k : ℕ) (hnd : xs.Nodup) :
    topkIdxWith f xs k = topkIdx xs k := by
  obtain ⟨-, hlt1⟩ := topkIdxWith_nodup_lt f hf xs k
  obtain ⟨-, hlt2⟩ := topkIdxWith_nodup_lt argsortDesc argsortDesc_spec xs k
  refine map_inj_on_eq (fun i => xs.getD i 0) (topkIdxWith f xs k) (topkIdx xs k)
    ?_ (topkIdxWith_map_val f hf xs k)
  intro a ha b hb hval
  have ha' : a < xs.length := hlt1 a ha
  have hb' : b < xs.length := by
    rw [topkIdx] at hb
    exact hlt2 b hb
  have hval' : xs.getD a 0 = xs.getD b 0 := hval
  rw [List.getD_eq_getElem xs 0 ha', List.getD_eq_getElem xs 0 hb'] at hval'
  exact (hnd.getElem_inj_iff).mp hval'

/-- The compute path, written out: scores and metadata read off the
selected indices. -/
theorem searchComputeResWith_topk {Vec M : Type} [Inhabited M]
    (f : List ℚ → List ℕ) (dot : Vec → Vec → ℚ) (norm : Vec → ℚ)
    (vecs : List Vec) (norms : List ℚ) (meta : List M) (q : Vec) (k : ℕ) :
    searchComputeResWith f dot norm vecs norms meta q k
      = (topkIdxWith f (simsOf dot norm vecs norms q) k).map
          fun i => ((simsOf dot norm vecs norms q).getD i 0, meta.getD i default) :=
  rfl

/-- The returned score sequence does not depend on the argsort
implementation: it equals the brute-force top-k score sequence. -/
theorem searchComputeResWith_map_fst {Vec M : Type} [Inhabited M]
    (f : List ℚ → List ℕ) (hf : ArgsortSpec f) (dot : Vec → Vec → ℚ)
    (norm : Vec → ℚ) (vecs : List Vec) (meta : List M) (q : Vec) (k : ℕ)
    (hk : k ≤ vecs.length) :
    (searchComputeResWith f dot norm vecs (vecs.map norm) meta q k).map Prod.fst
      = (bruteForceTopK dot norm vecs meta q k).map Prod.fst := by
  rw [← searchComputeRes_eq_brute dot norm vecs meta q k hk, searchComputeRes,
    searchComputeResWith_topk, searchComputeResWith_topk, List.map_map, List.map_map]
  have h := topkIdxWith_map_val f hf (simsOf dot norm vecs (vecs.map norm) q) k
  rw [topkIdx] at h
  exact h

/-- For any admissible argsort the compute path returns exactly `k` pairs. -/
theorem searchComputeResWith_length {Vec M : Type} [Inhabited M]
    (f : List ℚ → List ℕ) (hf : ArgsortSpec f) (dot : Vec → Vec → ℚ)
    (norm : Vec → ℚ) (vecs : List Vec) (meta : List M) (q : Vec) (k : ℕ)
    (hk : k ≤ vecs.length) :
    (searchComputeResWith f dot norm vecs (vecs.map norm) meta q k).length = k := by
  have h := congrArg List.length
    (searchComputeResWith_map_fst f hf dot norm vecs meta q k hk)
  rw [List.length_map, List.length_map] at h
  rw [h, ← searchComputeRes_eq_brute dot norm vecs meta q k hk]
  exact searchComputeRes_length dot norm vecs meta q k hk

/-- For any admissible argsort the returned scores are non-increasing. -/
theorem searchComputeResWith_sorted {Vec M : Type} [Inhabited M]
    (f : List ℚ → List ℕ) (hf : ArgsortSpec f) (dot : Vec → Vec → ℚ)
    (norm : Vec → ℚ) (vecs : List Vec) (meta : List M) (q : Vec) (k : ℕ)
    (hk : k ≤ vecs.length) :
    List.Sorted (· ≥ ·)
      ((searchComputeResWith f dot norm vecs (vecs.map norm) meta q k).map
        Prod.fst) := by
  rw [searchComputeResWith_map_fst f hf dot norm vecs meta q k hk,
    ← searchComputeRes_eq_brute dot norm vecs meta q k hk]
  exact searchComputeRes_sorted dot norm vecs meta q k hk

/-- For any admissible argsort the returned pairs are read off `k`
pairwise-distinct stored positions. -/
theorem searchComputeResWith_idxs {Vec M : Type} [Inhabited M]
    (f : List ℚ → List ℕ) (hf : ArgsortSpec f) (dot : Vec → Vec → ℚ)
    (norm : Vec → ℚ) (vecs : List Vec) (meta : List M) (q : Vec) (k : ℕ)
    (hk : k ≤ vecs.length) :
    ∃ idxs : List ℕ, idxs.Nodup ∧ idxs.length = k
      ∧ (∀ i ∈ idxs, i < vecs.length)
      ∧ searchComputeResWith f dot norm vecs (vecs.map norm) meta q k
          = idxs.map fun i =>
              ((simsOf dot norm vecs (vecs.map norm) q).getD i 0,
               meta.getD i default) := by
  refine ⟨topkIdxWith f (simsOf dot norm vecs (vecs.map norm) q) k, ?_, ?_, ?_, ?_⟩
  · exact (topkIdxWith_nodup_lt f hf (simsOf dot norm vecs (vecs.map norm) q) k).1
  · have h := searchComputeResWith_length f hf dot norm vecs meta q k hk
    rw [searchComputeResWith_topk, List.length_map] at h
    exact h
  · intro i hi
    have h := (topkIdxWith_nodup_lt f hf
      (simsOf dot norm vecs (vecs.map norm) q) k).2 i hi
    rwa [simsOf_length] at h
  · exact searchComputeResWith_topk f dot norm vecs (vecs.map norm) meta q k

/-- With pairwise-distinct scores every admissible argsort reproduces the
brute-force stable top-k exactly. -/
theorem searchComputeResWith_eq_brute_of_nodup {Vec M : Type} [Inhabited M]
    (f : List ℚ → List ℕ) (hf : ArgsortSpec f) (dot : Vec → Vec → ℚ)
    (norm : Vec → ℚ) (vecs : List Vec) (meta : List M) (q : Vec) (k : ℕ)
    (hk : k ≤ vecs.length)
    (hnd : (simsOf dot norm vecs (vecs.map norm) q).Nodup) :
    searchComputeResWith f dot norm vecs (vecs.map norm) meta q k
      = bruteForceTopK dot norm vecs meta q k := by
  rw [← searchComputeRes_eq_brute dot norm vecs meta q k hk, searchComputeRes,
    searchComputeResWith_topk, searchComputeResWith_topk,
    topkIdxWith_eq_of_nodup f hf _ k hnd, topkIdx]

/-- A fresh-cache search through any argsort implementation returns the
computed ranking (also for the empty store, where both sides are empty). -/
theorem memSearchWith_fresh {Vec M : Type} [DecidableEq Vec] [Inhabited M]
    (f : List ℚ → List ℕ) (hf : ArgsortSpec f) (dot : Vec → Vec → ℚ)
    (norm : Vec → ℚ) (S : MemStore Vec M) (q : Vec) (k : ℕ) (t : ℚ)
    (hc : S.cache = []) (hn : S.norms = S.vecs.map norm) :
    (memSearchWith f dot norm S q k t).1
      = searchComputeResWith f dot norm S.vecs (S.vecs.map norm) S.meta q k := by
  by_cases hne : S.vecs.length = 0
  · have hv : S.vecs = [] := List.length_eq_zero.mp hne
    have hfnil : f [] = [] := List.Perm.eq_nil (by simpa using (hf []).1)
    rw [memSearchWith, if_pos hne, hv]
    simp [searchComputeResWith, simsOf, topkIdxWith, hfnil]
  · rw [memSearchWith, if_neg hne, hc]
    simp only [cleanupCache_nil, lookupCache_nil, hn, List.length_map, ne_eq,
      not_true_eq_false, if_false, ite_self]

/-- C1 (amended): on a store with `N` vectors, an empty cache and up-to-date
norms, any `k ≤ N`, and ANY argsort implementation satisfying the contract
NumPy documents for `np.argsort` with the default (unstable) sort
(`ArgsortSpec` — tie order unspecified), `search` returns exactly `k`
(score, metadata) pairs, sorted by non-increasing score; the returned score
sequence equals the brute-force top-k score sequence; the returned pairs are
read off `k` pairwise-distinct stored positions; and when no two stored
vectors tie in score the result equals the brute-force stable top-k exactly.
The spec's further promise — equal scores returned in insertion order — is
refuted at `search_tiebreak_counterexample`. -/
theorem inmemory_search_topk_any_argsort {Vec M : Type} [DecidableEq Vec]
    [Inhabited M] (f : List ℚ → List ℕ) (dot : Vec → Vec → ℚ) (norm : Vec → ℚ)
    (S : MemStore Vec M) (q : Vec) (k : ℕ) (t : ℚ) (hf : ArgsortSpec f)
    (hc : S.cache = []) (hn : S.norms = S.vecs.map norm)
    (hk : k ≤ S.vecs.length) :
    ((memSearchWith f dot norm S q k t).1).length = k
    ∧ List.Sorted (· ≥ ·) ((memSearchWith f dot norm S q k t).1.map Prod.fst)
    ∧ (memSearchWith f dot norm S q k t).1.map Prod.fst
        = (bruteForceTopK dot norm S.vecs S.meta q k).map Prod.fst
    ∧ (∃ idxs : List ℕ, idxs.Nodup ∧ idxs.length = k
        ∧ (∀ i ∈ idxs, i < S.vecs.length)
        ∧ (memSearchWith f dot norm S q k t).1
            = idxs.map fun i =>
                ((simsOf dot norm S.vecs (S.vecs.map norm) q).getD i 0,
                 S.meta.getD i default))
    ∧ ((simsOf dot norm S.vecs (S.vecs.map norm) q).Nodup →
        (memSearchWith f dot norm S q k t).1
          = bruteForceTopK dot norm S.vecs S.meta q k) := by
  have hres := memSearchWith_fresh f hf dot norm S q k t hc hn
  rw [hres]
  exact ⟨searchComputeResWith_length f hf dot norm S.vecs S.meta q k hk,
    searchComputeResWith_sorted f hf dot norm S.vecs S.meta q k hk,
    searchComputeResWith_map_fst f hf dot norm S.vecs S.meta q k hk,
    searchComputeResWith_idxs f hf dot norm S.vecs S.meta q k hk,
    fun hnd =>
      searchComputeResWith_eq_brute_of_nodup f hf dot norm S.vecs S.meta q k hk hnd⟩

/-! ## Cache behaviour of `InMemoryStore` -/

theorem evictIfFull_nil {Vec M : Type} [DecidableEq Vec] :
    evictIfFull ([] : List (CacheEntry Vec M)) = [] := rfl

theorem insertCache_nil {Vec M : Type} [DecidableEq Vec] (key : Vec × ℕ)
    (v : List (ℚ × M) × ℚ) :
    insertCache ([] : List (CacheEntry Vec M)) key v = [(key, v)] := rfl

theorem cleanupCache_singleton {Vec M : Type} [DecidableEq Vec]
    (e : CacheEntry Vec M) (t : ℚ) (h : cacheValid t e.2.2 = true) :
    cleanupCache [e] t = [e] := by
  rw [cleanupCache]
  simp [h, maxCacheSize]

theorem lookupCache_head {Vec M : Type} [DecidableEq Vec] (key : Vec × ℕ)
    (v : List (ℚ × M) × ℚ) (rest : List (CacheEntry Vec M)) :
    lookupCache ((key, v) :: rest) key = Option.some v := by
  rw [lookupCache]
  simp

/-- A cache-miss search on a fresh cache: the result is computed, and the
store keeps the result (with its timestamp) as the sole cache entry. -/
theorem memSearch_empty_cache_eq {Vec M : Type} [DecidableEq Vec] [Inhabited M]
    (dot : Vec → Vec → ℚ) (norm : Vec → ℚ) (S : MemStore Vec M) (q : Vec)
    (k : ℕ) (t : ℚ) (hc : S.cache = []) (hn : S.norms = S.vecs.map norm)
    (hne : S.vecs.length ≠ 0) :
    memSearch dot norm S q k t
      = (searchComputeRes dot norm S.vecs (S.vecs.map norm) S.meta q k,
         { S with norms := S.vecs.map norm,
                  cache := [((q, k),
                    (searchComputeRes dot norm S.vecs (S.vecs.map norm) S.meta q k, t))] }) := by
  rw [memSearch, memSearchWith, if_neg hne, hc]
  simp only [cleanupCache_nil, lookupCache_nil, hn, List.length_map, ne_eq,
    not_true_eq_false, if_false, ite_self, evictIfFull_nil, insertCache_nil,
    searchComputeRes]

/-- A fresh-cache search returns the computed ranking (also when the store is
empty, where both sides are empty). -/
theorem memSearch_fresh {Vec M : Type} [DecidableEq Vec] [Inhabited M]
    (dot : Vec → Vec → ℚ) (norm : Vec → ℚ) (S : MemStore Vec M) (q : Vec)
    (k : ℕ) (t : ℚ) (hc : S.cache = []) (hn : S.norms = S.vecs.map norm) :
    (memSearch dot norm S q k t).1
      = searchComputeRes dot norm S.vecs (S.vecs.map norm) S.meta q k := by
  rw [memSearch, searchComputeRes]
  exact memSearchWith_fresh argsortDesc argsortDesc_spec dot norm S q k t hc hn

/-- An effective upsert leaves the store with an empty cache and freshly
recomputed norms. -/
theorem memUpsert_pos_cache {Vec M : Type} (norm : Vec → ℚ)
    (hashOf : M → Option String) (S : MemStore Vec M) (vs : List Vec)
    (ms : List M) (hpos : 0 < (memUpsert norm hashOf S vs ms).2) :
    (memUpsert norm hashOf S vs ms).1.cache = []
    ∧ (memUpsert norm hashOf S vs ms).1.norms
        = (memUpsert norm hashOf S vs ms).1.vecs.map norm := by
  rw [memUpsert] at hpos ⊢
  by_cases h : 0 < (upsertLoop hashOf (vs.zip ms) S).2
  · rw [if_pos h]
    exact ⟨rfl, rfl⟩
  · rw [if_neg h] at hpos
    exact absurd hpos h

/-- C5: starting from an empty cache, a second identical search (same query
and k) within the TTL with no intervening upsert returns exactly the first
search's ranked results (served from the cache); and an upsert that inserts
at least one new pair clears the cache, after which an identical search
recomputes its result over the updated store. -/
theorem cache_hit_and_invalidation {Vec M : Type} [DecidableEq Vec] [Inhabited M]
    (dot : Vec → Vec → ℚ) (norm : Vec → ℚ) (hashOf : M → Option String)
    (S : MemStore Vec M) (q : Vec) (k : ℕ) (t1 t2 t3 : ℚ)
    (vs : List Vec) (ms : List M) :
    (S.cache = [] → S.norms = S.vecs.map norm → t2 - t1 < cacheTtl →
      (memSearch dot norm (memSearch dot norm S q k t1).2 q k t2).1
        = (memSearch dot norm S q k t1).1)
    ∧ (0 < (memUpsert norm hashOf S vs ms).2 →
      (memUpsert norm hashOf S vs ms).1.cache = []
      ∧ (memSearch dot norm (memUpsert norm hashOf S vs ms).1 q k t3).1
          = searchComputeRes dot norm (memUpsert norm hashOf S vs ms).1.vecs
              ((memUpsert norm hashOf S vs ms).1.vecs.map norm)
              (memUpsert norm hashOf S vs ms).1.meta q k) := by
  constructor
  · intro hc hn httl
    by_cases hne : S.vecs.length = 0
    · have h1 : memSearch dot norm S q k t1 = ([], S) := by
        rw [memSearch, memSearchWith, if_pos hne]
      rw [h1]
      show (memSearch dot norm S q k t2).1 = ([], S).1
      rw [memSearch, memSearchWith, if_pos hne]
    · rw [memSearch_empty_cache_eq dot norm S q k t1 hc hn hne]
      have hvalid : cacheValid t2 t1 = true := decide_eq_true httl
      rw [memSearch, memSearchWith, if_neg hne]
      rw [show cleanupCache
          [((q, k), (searchComputeRes dot norm S.vecs (S.vecs.map norm) S.meta q k, t1))] t2
          = [((q, k), (searchComputeRes dot norm S.vecs (S.vecs.map norm) S.meta q k, t1))]
        from cleanupCache_singleton _ t2 hvalid]
      simp only [lookupCache_head, hvalid, if_true]
  · intro hpos
    obtain ⟨hc', hn'⟩ := memUpsert_pos_cache norm hashOf S vs ms hpos
    exact ⟨hc', memSearch_fresh dot norm _ q k t3 hc' hn'⟩

/-! ## Upsert behaviour of `InMemoryStore` -/

/-- The store grows by exactly the internal `vectors_added` counter. -/
theorem upsertLoop_grow {Vec M : Type} (hashOf : M → Option String) :
    ∀ (ps : List (Vec × M)) (S : MemStore Vec M),
      (upsertLoop hashOf ps S).1.vecs.length
        = S.vecs.length + (upsertLoop hashOf ps S).2
  | [], _ => by simp [upsertLoop]
  | (v, m) :: rest, S => by
    rw [upsertLoop]
    by_cases h : truthyHash (hashOf m) = true ∧ (hashOf m).getD "" ∈ S.hashes
    · rw [if_pos h]
      exact upsertLoop_grow hashOf rest S
    · rw [if_neg h]
      show (upsertLoop hashOf rest (upsertStep hashOf v m S)).1.vecs.length
        = S.vecs.length + ((upsertLoop hashOf rest (upsertStep hashOf v m S)).2 + 1)
      rw [upsertLoop_grow hashOf rest]
      rw [show (upsertStep hashOf v m S).vecs = S.vecs ++ [v] from rfl]
      simp only [List.length_append, List.length_cons, List.length_nil]
      omega

/-- When every incoming pair is a truthy-hash duplicate, the whole upsert loop
is a no-op and counts zero insertions. -/
theorem upsertLoop_all_skip {Vec M : Type} (hashOf : M → Option String) :
    ∀ (ps : List (Vec × M)) (S : MemStore Vec M),
      (∀ p ∈ ps, truthyHash (hashOf p.2) = true ∧ (hashOf p.2).getD "" ∈ S.hashes) →
      upsertLoop hashOf ps S = (S, 0)
  | [], _ => fun _ => rfl
  | (v, m) :: rest, S => fun h => by
    rw [upsertLoop, if_pos (h (v, m) (List.mem_cons_self _ _))]
    exact upsertLoop_all_skip hashOf rest S fun p hp => h p (List.mem_cons_of_mem _ hp)

/-- `InMemoryStore.upsert` on already-stored content: the store is returned
completely unchanged (no norm refresh, no cache clear) and the internal
counter is zero. -/
theorem memUpsert_all_skip {Vec M : Type} (norm : Vec → ℚ)
    (hashOf : M → Option String) (S : MemStore Vec M) (vs : List Vec)
    (ms : List M)
    (h : ∀ p ∈ vs.zip ms, truthyHash (hashOf p.2) = true ∧ (hashOf p.2).getD "" ∈ S.hashes) :
    memUpsert norm hashOf S vs ms = (S, 0) := by
  rw [memUpsert, upsertLoop_all_skip hashOf (vs.zip ms) S h]
  rfl

/-- Upserting one fresh truthy-hash pair inserts it; repeating the call is a
no-op reporting zero internally. -/
theorem memUpsert_single_fresh {Vec M : Type} (norm : Vec → ℚ)
    (hashOf : M → Option String) (S : MemStore Vec M) (v : Vec) (m : M)
    (s : String) (hs : hashOf m = Option.some s) (hne : s ≠ "")
    (hmem : s ∉ S.hashes) :
    (memUpsert norm hashOf S [v] [m]).2 = 1
    ∧ (memUpsert norm hashOf S [v] [m]).1.vecs.length = S.vecs.length + 1
    ∧ memUpsert norm hashOf (memUpsert norm hashOf S [v] [m]).1 [v] [m]
        = ((memUpsert norm hashOf S [v] [m]).1, 0) := by
  have htr : truthyHash (hashOf m) = true := by
    rw [hs, truthyHash]
    exact bne_iff_ne.mpr hne
  have hloop : upsertLoop hashOf ([v].zip [m]) S = (upsertStep hashOf v m S, 1) := by
    show upsertLoop hashOf [(v, m)] S = _
    rw [upsertLoop,
      if_neg (fun hc => hmem (by rw [hs] at hc; exact hc.2)), upsertLoop]
  have htr' : truthyHash (Option.some s) = true := bne_iff_ne.mpr hne
  have hstep_hashes : (upsertStep hashOf v m S).hashes = S.hashes ++ [s] := by
    rw [upsertStep]
    simp only [hs, htr', if_true, Option.getD_some]
  have hup : memUpsert norm hashOf S [v] [m]
      = ({ upsertStep hashOf v m S with
            norms := (upsertStep hashOf v m S).vecs.map norm, cache := [] }, 1) := by
    rw [memUpsert, hloop]
    rfl
  refine ⟨by rw [hup], ?_, ?_⟩
  · rw [hup]
    show (S.vecs ++ [v]).length = S.vecs.length + 1
    simp
  · rw [hup]
    refine memUpsert_all_skip norm hashOf _ [v] [m] ?_
    intro p hp
    have hpm : p = (v, m) := by simpa using hp
    subst hpm
    refine ⟨htr, ?_⟩
    rw [hs]
    show s ∈ (upsertStep hashOf v m S).hashes
    rw [hstep_hashes]
    exact List.mem_append_right _ (List.mem_singleton.mpr rfl)

/-- Re-adding only already-present titles leaves the title set unchanged. -/
theorem foldl_addTitle_mem :
    ∀ (cs : List Chunk) (ts : List String), (∀ c ∈ cs, c.title ∈ ts) →
      cs.foldl (fun acc c => addTitle acc c.title) ts = ts
  | [], _ => fun _ => rfl
  | c :: rest, ts => fun h => by
    rw [List.foldl_cons]
    rw [show addTitle ts c.title = ts from if_pos (h c (List.mem_cons_self _ _))]
    exact foldl_addTitle_mem rest ts fun c' hc' => h c' (List.mem_cons_of_mem _ hc')

/-- C2 (amended): a second upsert of the same truthy-hash pair leaves the
store byte-for-byte unchanged and counts zero insertions internally, but that
count is not returned to the caller; a full re-ingestion of already-stored
content makes `ingest_chunks` report `new_docs = 0` and
`new_chunks = len(chunks)` (the number of chunks processed), not zero. -/
theorem upsert_idempotent_reingest_counts {Vec : Type} (embed : String → Vec)
    (norm : Vec → ℚ) (dochash : String → String)
    (E : MemEngine Vec) (chunks : List Chunk) (S : MemStore Vec ChunkMeta)
    (v : Vec) (m : ChunkMeta) (s : String)
    (hs : chunkMetaHash m = Option.some s) (hne : s ≠ "") (hmem : s ∉ S.hashes)
    (hh : ∀ c ∈ chunks, dochash c.text ≠ "" ∧ dochash c.text ∈ E.store.hashes)
    (ht : ∀ c ∈ chunks, c.title ∈ E.docTitles) :
    ((memUpsert norm chunkMetaHash S [v] [m]).1.vecs.length = S.vecs.length + 1
      ∧ memUpsert norm chunkMetaHash (memUpsert norm chunkMetaHash S [v] [m]).1 [v] [m]
          = ((memUpsert norm chunkMetaHash S [v] [m]).1, 0))
    ∧ (ingest_chunks embed norm dochash E chunks).1 = (0, chunks.length)
    ∧ (ingest_chunks embed norm dochash E chunks).2.store = E.store := by
  obtain ⟨_, hlen, hsecond⟩ :=
    memUpsert_single_fresh norm chunkMetaHash S v m s hs hne hmem
  refine ⟨⟨hlen, hsecond⟩, ?_, ?_⟩
  · rw [ingest_chunks]
    rw [foldl_addTitle_mem chunks E.docTitles ht]
    simp [List.length_map]
  · rw [ingest_chunks]
    rw [memUpsert_all_skip norm chunkMetaHash E.store _ _ ?_]
    intro p hp
    have hp2 : p.2 ∈ chunks.map (ChunkMeta.ofChunk dochash) := (List.of_mem_zip hp).2
    rcases List.mem_map.mp hp2 with ⟨c, hc, hcm⟩
    rcases hh c hc with ⟨hcne, hcmem⟩
    rw [← hcm]
    constructor
    · rw [chunkMetaHash, ChunkMeta.ofChunk, truthyHash]
      exact bne_iff_ne.mpr hcne
    · rw [chunkMetaHash, ChunkMeta.ofChunk]
      exact hcmem

/-! ## The deduplication invariant (C10) -/

/-- The truthy-hash contribution of a single metadata record. -/
theorem truthyHashes_upsertStep {Vec M : Type} (hashOf : M → Option String)
    (S : MemStore Vec M) (v : Vec) (m : M) :
    truthyHashes hashOf (upsertStep hashOf v m S)
      = truthyHashes hashOf S ++ (match hashOf m with
        | Option.some s => if s = "" then [] else [s]
        | Option.none => []) := by
  rw [truthyHashes, truthyHashes]
  rw [show (upsertStep hashOf v m S).meta = S.meta ++ [m] from rfl]
  rw [List.filterMap_append]
  congr 1
  cases hm : hashOf m with
  | none => simp [List.filterMap, hm]
  | some s =>
    by_cases hs : s = ""
    · simp [List.filterMap, hm, hs]
    · simp [List.filterMap, hm, hs]

/-- A falsy hash contributes nothing to the truthy-hash list. -/
theorem truthyHash_false_contrib (h : Option String)
    (hf : truthyHash h = false) :
    (match h with
      | Option.some s => if s = "" then [] else ([s] : List String)
      | Option.none => []) = [] := by
  cases h with
  | none => rfl
  | some s =>
    rw [truthyHash] at hf
    have : s = "" := by simpa using hf
    simp [this]

/-- `InMemoryStore.upsert`'s loop preserves the deduplication invariant. -/
theorem upsertLoop_hashinv {Vec M : Type} (hashOf : M → Option String) :
    ∀ (ps : List (Vec × M)) (S : MemStore Vec M),
      HashInv hashOf S → HashInv hashOf (upsertLoop hashOf ps S).1
  | [], _ => id
  | (v, m) :: rest, S => fun hInv => by
    rw [upsertLoop]
    by_cases hcond : truthyHash (hashOf m) = true ∧ (hashOf m).getD "" ∈ S.hashes
    · rw [if_pos hcond]
      exact upsertLoop_hashinv hashOf rest S hInv
    · rw [if_neg hcond]
      show HashInv hashOf (upsertLoop hashOf rest (upsertStep hashOf v m S)).1
      refine upsertLoop_hashinv hashOf rest _ ?_
      cases htr : truthyHash (hashOf m) with
      | false =>
        have hthm : truthyHashes hashOf (upsertStep hashOf v m S)
            = truthyHashes hashOf S := by
          rw [truthyHashes_upsertStep, truthyHash_false_contrib _ htr,
            List.append_nil]
        have hhashes : (upsertStep hashOf v m S).hashes = S.hashes := by
          rw [upsertStep]
          simp [htr]
        exact ⟨fun x hx => by
            rw [hhashes]
            exact hInv.1 x (hthm ▸ hx),
          by rw [hthm]; exact hInv.2⟩
      | true =>
        obtain ⟨s, hm, hs⟩ : ∃ s, hashOf m = Option.some s ∧ s ≠ "" := by
          cases hm : hashOf m with
          | none => rw [hm, truthyHash] at htr; exact absurd htr (by simp)
          | some s =>
            refine ⟨s, rfl, ?_⟩
            rw [hm, truthyHash] at htr
            exact bne_iff_ne.mp htr
        have hnotmem : s ∉ S.hashes := fun hmem =>
          hcond ⟨htr, by rw [hm]; exact hmem⟩
        have hthm : truthyHashes hashOf (upsertStep hashOf v m S)
            = truthyHashes hashOf S ++ [s] := by
          rw [truthyHashes_upsertStep, hm]
          simp [hs]
        have hhashes : (upsertStep hashOf v m S).hashes = S.hashes ++ [s] := by
          rw [upsertStep]
          simp [hm, truthyHash, bne_iff_ne.mpr hs]
        have hsnot : s ∉ truthyHashes hashOf S := fun hx => hnotmem (hInv.1 s hx)
        constructor
        · intro x hx
          rw [hthm] at hx
          rw [hhashes]
          rcases List.mem_append.mp hx with hx | hx
          · exact List.mem_append_left _ (hInv.1 x hx)
          · exact List.mem_append_right _ hx
        · rw [hthm]
          refine List.nodup_append.mpr ⟨hInv.2, List.nodup_singleton s, ?_⟩
          intro x hx hx'
          rw [List.mem_singleton] at hx'
          exact hsnot (hx' ▸ hx)

/-- `InMemoryStore.upsert` preserves the deduplication invariant (the norm
refresh and cache clear do not touch metadata or the hash set). -/
theorem memUpsert_hashinv {Vec M : Type} (norm : Vec → ℚ)
    (hashOf : M → Option String) (S : MemStore Vec M) (vs : List Vec)
    (ms : List M) (hInv : HashInv hashOf S) :
    HashInv hashOf (memUpsert norm hashOf S vs ms).1 := by
  rw [memUpsert]
  by_cases h : 0 < (upsertLoop hashOf (vs.zip ms) S).2
  · rw [if_pos h]
    exact upsertLoop_hashinv hashOf (vs.zip ms) S hInv
  · rw [if_neg h]
    exact upsertLoop_hashinv hashOf (vs.zip ms) S hInv

/-- C10: a pair whose metadata hash is falsy (absent or empty) is appended
unconditionally — every such upsert grows the store by one entry and reports
one insertion internally, no matter what is already stored — while the
no-duplicate invariant is maintained (only) over the truthy-hash entries:
it holds of the empty store and is preserved by every upsert. -/
theorem dedup_only_for_truthy_hashes {Vec M : Type} (norm : Vec → ℚ)
    (hashOf : M → Option String) (S T : MemStore Vec M) (v : Vec) (m : M)
    (vs : List Vec) (ms : List M)
    (hfalsy : truthyHash (hashOf m) = false) (hInv : HashInv hashOf T) :
    ((memUpsert norm hashOf S [v] [m]).2 = 1
      ∧ (memUpsert norm hashOf S [v] [m]).1.vecs.length = S.vecs.length + 1)
    ∧ HashInv hashOf (memUpsert norm hashOf T vs ms).1
    ∧ HashInv hashOf (MemStore.empty Vec M) := by
  have hloop : upsertLoop hashOf ([v].zip [m]) S = (upsertStep hashOf v m S, 1) := by
    show upsertLoop hashOf [(v, m)] S = _
    rw [upsertLoop, if_neg (fun hc => by rw [hfalsy] at hc; exact absurd hc.1 (by simp)),
      upsertLoop]
  have hup : memUpsert norm hashOf S [v] [m]
      = ({ upsertStep hashOf v m S with
            norms := (upsertStep hashOf v m S).vecs.map norm, cache := [] }, 1) := by
    rw [memUpsert, hloop]
    rfl
  refine ⟨⟨by rw [hup], ?_⟩, memUpsert_hashinv norm hashOf T vs ms hInv, ?_⟩
  · rw [hup]
    show (S.vecs ++ [v]).length = S.vecs.length + 1
    simp
  · exact ⟨fun x hx => absurd hx (List.not_mem_nil x), List.nodup_nil⟩

/-! ## `QdrantStore` failure behaviour -/

theorem retryRes_none_of_all_fail {V : Type} (f : ℕ → Except Unit V)
    (maxR : ℕ) (base maxd : ℚ) (hf : ∀ n, f n = Except.error ()) :
    retryRes f maxR base maxd = Option.none := by
  rw [retryRes, retry_with_backoff, retryLoop_all_fail f base maxd hf (maxR + 1) 0]

theorem qdrantReconnect_cache {Vec M : Type} (conn : ℕ → Except Unit Unit)
    (S : QStore Vec M) : (qdrantReconnect conn S).cache = S.cache := by
  rw [qdrantReconnect]
  by_cases h : S.healthy = true
  · rw [if_pos h]
  · rw [if_neg h]

/-- A search whose every network attempt fails returns `[]`, and leaves the
client unhealthy with the (cleaned) cache intact — here empty. -/
theorem qdrantSearch_exhausted {Vec M : Type} [DecidableEq Vec]
    (conn : ℕ → Except Unit Unit) (net : ℕ → Except Unit (List (ℚ × M)))
    (S : QStore Vec M) (q : Vec) (k : ℕ) (t : ℚ)
    (hnet : ∀ n, net n = Except.error ()) (hc : S.cache = []) :
    (qdrantSearch conn net S q k t).1 = []
    ∧ (qdrantSearch conn net S q k t).2.healthy = false := by
  have hcache : (qdrantReconnect conn S).cache = [] := by
    rw [qdrantReconnect_cache]
    exact hc
  cases hh : (qdrantReconnect conn S).healthy with
  | false =>
    have hs : qdrantSearch conn net S q k t = ([], qdrantReconnect conn S) := by
      rw [qdrantSearch]
      simp [hh]
    rw [hs]
    exact ⟨rfl, hh⟩
  | true =>
    have hret : retryRes net 2 (1 / 2) 30 = Option.none :=
      retryRes_none_of_all_fail net 2 (1 / 2) 30 hnet
    rw [one_div] at hret
    have hs : qdrantSearch conn net S q k t
        = ([], { qdrantReconnect conn S with healthy := false, cache := [] }) := by
      rw [qdrantSearch]
      simp [hh, hcache, cleanupCache_nil, lookupCache_nil, hret]
    rw [hs]
    exact ⟨rfl, rfl⟩

/-- An upsert whose every network attempt fails raises and leaves the client
unhealthy (also when already unreachable at the health check). -/
theorem qdrantUpsert_exhausted {Vec M : Type}
    (conn : ℕ → Except Unit Unit) (up : List PointId → ℕ → Except Unit Unit)
    (S : QStore Vec M) (metas : List QMeta)
    (hup : ∀ pts n, up pts n = Except.error ()) :
    (qdrantUpsert conn up S metas).1 = Except.error ()
    ∧ (qdrantUpsert conn up S metas).2.healthy = false := by
  cases hh : (qdrantReconnect conn S).healthy with
  | false =>
    have hu : qdrantUpsert conn up S metas
        = (Except.error (), qdrantReconnect conn S) := by
      rw [qdrantUpsert]
      simp [hh]
    rw [hu]
    exact ⟨rfl, hh⟩
  | true =>
    have hret : retryRes (up (qdrantPointIds metas)) 3 1 30 = Option.none :=
      retryRes_none_of_all_fail _ 3 1 30 (hup _)
    have hu : qdrantUpsert conn up S metas
        = (Except.error (), { qdrantReconnect conn S with healthy := false }) := by
      rw [qdrantUpsert]
      simp [hh, hret]
    rw [hu]
    exact ⟨rfl, rfl⟩

/-- C4: when every retry attempt of the remote call fails, `upsert` marks the
client unhealthy and propagates a hard failure (`RuntimeError`, modelled as
`Except.error`), while `search` marks the client unhealthy and returns the
empty sequence as a plain value — `qdrantSearch` returns by construction and
can never raise for a reachability failure (the retry wrapper catches every
exception of the underlying call). -/
theorem qdrant_upsert_hard_search_soft {Vec M : Type} [DecidableEq Vec]
    (conn : ℕ → Except Unit Unit) (up : List PointId → ℕ → Except Unit Unit)
    (net : ℕ → Except Unit (List (ℚ × M))) (S : QStore Vec M)
    (metas : List QMeta) (q : Vec) (k : ℕ) (t : ℚ)
    (hup : ∀ pts n, up pts n = Except.error ())
    (hnet : ∀ n, net n = Except.error ())
    (hc : S.cache = []) :
    (qdrantUpsert conn up S metas).1 = Except.error ()
    ∧ (qdrantUpsert conn up S metas).2.healthy = false
    ∧ (qdrantSearch conn net S q k t).1 = []
    ∧ (qdrantSearch conn net S q k t).2.healthy = false := by
  obtain ⟨h1, h2⟩ := qdrantUpsert_exhausted conn up S metas hup
  obtain ⟨h3, h4⟩ := qdrantSearch_exhausted conn net S q k t hnet hc
  exact ⟨h1, h2, h3, h4⟩

/-- Witness for C4 at concrete inputs (healthy client, empty cache, every
network attempt failing). -/
theorem qdrant_upsert_hard_search_soft_witness :
    (qdrantUpsert (fun _ => Except.ok ())
        (fun _ _ => Except.error ()) (⟨true, []⟩ : QStore Unit Unit) []).1 = Except.error ()
    ∧ (qdrantUpsert (fun _ => Except.ok ())
        (fun _ _ => Except.error ()) (⟨true, []⟩ : QStore Unit Unit) []).2.healthy = false
    ∧ (qdrantSearch (fun _ => Except.ok ())
        (fun _ => Except.error ()) (⟨true, []⟩ : QStore Unit Unit) () 4 0).1 = ([] : List (ℚ × Unit))
    ∧ (qdrantSearch (fun _ => Except.ok ())
        (fun _ => Except.error ()) (⟨true, []⟩ : QStore Unit Unit) () 4 0).2.healthy = false :=
  qdrant_upsert_hard_search_soft (fun _ => Except.ok ()) (fun _ _ => Except.error ())
    (fun _ => Except.error ()) (⟨true, []⟩ : QStore Unit Unit) [] () 4 0
    (fun _ _ => rfl) (fun _ => rfl) rfl

/-- Counterexample to C6 as stated: the store is reachable at construction
(health record snapshots healthy/non-degraded), then a search exhausts its
retries — it returns `[]` and flips the store's own `service_healthy` flag to
false, yet the orchestrator's aggregated record still reports
`healthy = true`, `degraded = false` for the vector store when queried. -/
theorem health_snapshot_counterexample :
    (qengineSearch (fun _ => Except.ok ()) (fun _ => Except.error ())
        (QEngine.init (QStore.init Unit Unit (fun _ => Except.ok ()))
          ⟨true, "stub", false⟩) () 4 0).1 = []
    ∧ (qengineSearch (fun _ => Except.ok ()) (fun _ => Except.error ())
        (QEngine.init (QStore.init Unit Unit (fun _ => Except.ok ()))
          ⟨true, "stub", false⟩) () 4 0).2.store.healthy = false
    ∧ (qengineSearch (fun _ => Except.ok ()) (fun _ => Except.error ())
        (QEngine.init (QStore.init Unit Unit (fun _ => Except.ok ()))
          ⟨true, "stub", false⟩) () 4 0).2.status.anyDegraded = false
    ∧ (qengineSearch (fun _ => Except.ok ()) (fun _ => Except.error ())
        (QEngine.init (QStore.init Unit Unit (fun _ => Except.ok ()))
          ⟨true, "stub", false⟩) () 4 0).2.status.allHealthy = true
    ∧ (qengineSearch (fun _ => Except.ok ()) (fun _ => Except.error ())
        (QEngine.init (QStore.init Unit Unit (fun _ => Except.ok ()))
          ⟨true, "stub", false⟩) () 4 0).2.vsStatus
        = ⟨true, "qdrant", false⟩ := by
  refine ⟨?_, ?_, ?_, ?_, ?_⟩ <;> decide

/-- C6 (amended): whenever the remote backend is unreachable, `search`
returns `[]` without raising; the aggregated record reports `healthy = false`,
`degraded = true` when the backend was unreachable at construction — but the
record is a construction-time snapshot: a search failure after a healthy
construction flips only the store's own flag, not the aggregated record. -/
theorem degraded_health_reporting {Vec M : Type} [DecidableEq Vec]
    (conn : ℕ → Except Unit Unit) (net : ℕ → Except Unit (List (ℚ × M)))
    (S : QStore Vec M) (llm : HealthRecord) (q : Vec) (k : ℕ) (t : ℚ)
    (hnet : ∀ n, net n = Except.error ()) :
    ((∀ n, conn n = Except.error ()) →
      (QEngine.init (QStore.init Vec M conn) llm).vsStatus
          = ⟨false, "qdrant", true⟩
      ∧ (qengineSearch conn net (QEngine.init (QStore.init Vec M conn) llm) q k t).1 = []
      ∧ (qengineSearch conn net
          (QEngine.init (QStore.init Vec M conn) llm) q k t).2.status.anyDegraded = true
      ∧ (qengineSearch conn net
          (QEngine.init (QStore.init Vec M conn) llm) q k t).2.status.allHealthy = false)
    ∧ (S.healthy = true → S.cache = [] →
      (qengineSearch conn net (QEngine.init S llm) q k t).1 = []
      ∧ (qengineSearch conn net (QEngine.init S llm) q k t).2.store.healthy = false
      ∧ (qengineSearch conn net (QEngine.init S llm) q k t).2.vsStatus
          = ⟨true, "qdrant", false⟩) := by
  constructor
  · intro hconn
    have hinit : qdrantInitHealthy conn = false := by
      rw [qdrantInitHealthy, retryRes_none_of_all_fail conn 5 2 30 hconn]
      rfl
    have hvs : (QEngine.init (QStore.init Vec M conn) llm).vsStatus
        = ⟨false, "qdrant", true⟩ := by
      rw [QEngine.init, QStore.init]
      rw [hinit]
      rfl
    obtain ⟨h1, _⟩ := qdrantSearch_exhausted conn net (QStore.init Vec M conn)
      q k t hnet rfl
    refine ⟨hvs, h1, ?_, ?_⟩
    · show ((qengineSearch conn net _ q k t).2.vsStatus.degraded || _) = true
      rw [show (qengineSearch conn net
          (QEngine.init (QStore.init Vec M conn) llm) q k t).2.vsStatus
          = (QEngine.init (QStore.init Vec M conn) llm).vsStatus from rfl, hvs]
      rfl
    · show ((qengineSearch conn net _ q k t).2.vsStatus.healthy && _) = false
      rw [show (qengineSearch conn net
          (QEngine.init (QStore.init Vec M conn) llm) q k t).2.vsStatus
          = (QEngine.init (QStore.init Vec M conn) llm).vsStatus from rfl, hvs]
      rfl
  · intro hhealthy hcache
    obtain ⟨h1, h2⟩ := qdrantSearch_exhausted conn net S q k t hnet hcache
    refine ⟨h1, h2, ?_⟩
    rw [show (qengineSearch conn net (QEngine.init S llm) q k t).2.vsStatus
        = (QEngine.init S llm).vsStatus from rfl]
    rw [QEngine.init, hhealthy]
    rfl

/-- Witness for C6 (amended) at concrete inputs: a construction-time
unreachable backend and a healthy store whose search then fails. -/
theorem degraded_health_reporting_witness :
    ((QEngine.init (QStore.init Unit Unit (fun _ => Except.error ()))
        ⟨true, "stub", false⟩).vsStatus = ⟨false, "qdrant", true⟩
      ∧ (qengineSearch (fun _ => Except.error ()) (fun _ => Except.error ())
          (QEngine.init (QStore.init Unit Unit (fun _ => Except.error ()))
            ⟨true, "stub", false⟩) () 4 0).1 = ([] : List (ℚ × Unit))
      ∧ (qengineSearch (fun _ => Except.error ()) (fun _ => Except.error ())
          (QEngine.init (QStore.init Unit Unit (fun _ => Except.error ()))
            ⟨true, "stub", false⟩) () 4 0).2.status.anyDegraded = true
      ∧ (qengineSearch (fun _ => Except.error ()) (fun _ => Except.error ())
          (QEngine.init (QStore.init Unit Unit (fun _ => Except.error ()))
            ⟨true, "stub", false⟩) () 4 0).2.status.allHealthy = false)
    ∧ ((qengineSearch (fun _ => Except.error ()) (fun _ => Except.error ())
          (QEngine.init (⟨true, []⟩ : QStore Unit Unit) ⟨true, "stub", false⟩)
          () 4 0).1 = []
      ∧ (qengineSearch (fun _ => Except.error ()) (fun _ => Except.error ())
          (QEngine.init (⟨true, []⟩ : QStore Unit Unit) ⟨true, "stub", false⟩)
          () 4 0).2.store.healthy = false
      ∧ (qengineSearch (fun _ => Except.error ()) (fun _ => Except.error ())
          (QEngine.init (⟨true, []⟩ : QStore Unit Unit) ⟨true, "stub", false⟩)
          () 4 0).2.vsStatus = ⟨true, "qdrant", false⟩) := by
  have h := degraded_health_reporting
    (fun _ => Except.error ()) (fun _ => Except.error ()) (⟨true, []⟩ : QStore Unit Unit)
    ⟨true, "stub", false⟩ () 4 0 (fun _ => rfl)
  exact ⟨h.1 (fun _ => rfl), h.2 rfl rfl⟩

/-! ## Orchestrator health aggregation (C7) -/

/-- C7: `any_degraded` is the OR of the two `degraded` flags, `all_healthy`
the AND of the two `healthy` flags; the message carries exactly one clause per
degraded service (vector store first, joined by "; ") and no degradation
clause at all when neither service is degraded. -/
theorem health_aggregation (vs llm : HealthRecord) :
    (getServiceStatus vs llm).anyDegraded = (vs.degraded || llm.degraded)
    ∧ (getServiceStatus vs llm).allHealthy = (vs.healthy && llm.healthy)
    ∧ (statusClauses vs llm).length
        = (if vs.degraded then 1 else 0) + (if llm.degraded then 1 else 0)
    ∧ (statusClauses vs llm = [] ↔ vs.degraded = false ∧ llm.degraded = false)
    ∧ (getServiceStatus vs llm).statusMessage
        = (if statusClauses vs llm = [] then "All systems operational"
          else "⚠️ System running in degraded mode: "
            ++ String.intercalate "; " (statusClauses vs llm)) := by
  refine ⟨rfl, rfl, ?_, ?_, ?_⟩
  · rw [statusClauses]
    cases hv : vs.degraded <;> cases hl : llm.degraded <;> simp
  · rw [statusClauses]
    cases hv : vs.degraded <;> cases hl : llm.degraded <;> simp
  · show buildStatusMessage vs llm = _
    rw [buildStatusMessage]
    by_cases h : statusClauses vs llm = []
    · rw [if_pos h]
      rw [show (statusClauses vs llm).isEmpty = true from by rw [h]; rfl, if_pos rfl]
    · rw [if_neg h]
      rw [show (statusClauses vs llm).isEmpty = false from by
        cases hcl : statusClauses vs llm with
        | nil => exact absurd hcl h
        | cons a l => rfl]
      rfl

/-- Witness for C7 at a concrete degraded/healthy pair of records. -/
theorem health_aggregation_witness :
    (getServiceStatus ⟨true, "memory", true⟩ ⟨true, "stub", false⟩).anyDegraded
        = (true || false)
    ∧ (getServiceStatus ⟨true, "memory", true⟩ ⟨true, "stub", false⟩).allHealthy
        = (true && true)
    ∧ (statusClauses ⟨true, "memory", true⟩ ⟨true, "stub", false⟩).length
        = (if true then 1 else 0) + (if false then 1 else 0)
    ∧ (statusClauses ⟨true, "memory", true⟩ ⟨true, "stub", false⟩ = []
        ↔ true = false ∧ false = false)
    ∧ (getServiceStatus ⟨true, "memory", true⟩ ⟨true, "stub", false⟩).statusMessage
        = (if statusClauses ⟨true, "memory", true⟩ ⟨true, "stub", false⟩ = []
          then "All systems operational"
          else "⚠️ System running in degraded mode: "
            ++ String.intercalate "; "
              (statusClauses ⟨true, "memory", true⟩ ⟨true, "stub", false⟩)) :=
  health_aggregation ⟨true, "memory", true⟩ ⟨true, "stub", false⟩

/-! ## Point-identifier derivation (C8) -/

theorem hexDigit_ne {c : Char} (h : (hexDigitVal c).isSome = true) (d : Char)
    (hd : hexDigitVal d = Option.none) : c ≠ d := fun he => by
  rw [he, hd] at h
  exact absurd h (by simp)

theorem removeOccFuel_id (p : Char) (ps : List Char) :
    ∀ (fuel : ℕ) (l : List Char), p ∉ l → removeOccFuel p ps fuel l = l
  | 0, [] => fun _ => rfl
  | 0, _ :: _ => fun _ => rfl
  | _ + 1, [] => fun _ => rfl
  | fuel + 1, c :: rest => fun hp => by
    rw [removeOccFuel, if_neg]
    · exact congrArg (c :: ·)
        (removeOccFuel_id p ps fuel rest fun h => hp (List.mem_cons_of_mem _ h))
    · intro hpre
      have hpc : p = c := by
        rw [List.isPrefixOf] at hpre
        have := (Bool.and_eq_true _ _).mp hpre
        exact beq_iff_eq.mp this.1
      exact hp (hpc ▸ List.mem_cons_self _ _)

theorem removeOcc_id (p : Char) (ps : List Char) (l : List Char) (hp : p ∉ l) :
    removeOcc p ps l = l :=
  removeOccFuel_id p ps l.length l hp

theorem dropWhile_id {α : Type} (pred : α → Bool) :
    ∀ (l : List α), (∀ c ∈ l, pred c = false) → l.dropWhile pred = l
  | [], _ => rfl
  | c :: rest, h => by
    rw [List.dropWhile_cons, h c (List.mem_cons_self _ _)]
    simp

theorem stripBracesEnds_id (l : List Char)
    (h : ∀ c ∈ l, (hexDigitVal c).isSome = true) :
    stripBracesEnds l = l := by
  have hpred : ∀ c ∈ l, (c == '{' || c == '}') = false := fun c hc => by
    have h1 : c ≠ '{' := hexDigit_ne (h c hc) '{' (by decide)
    have h2 : c ≠ '}' := hexDigit_ne (h c hc) '}' (by decide)
    simp [h1, h2]
  rw [stripBracesEnds, dropWhile_id _ l hpred,
    dropWhile_id _ l.reverse (fun c hc => hpred c (List.mem_reverse.mp hc))]
  exact List.reverse_reverse l

theorem uuidStripped_id (s : String)
    (h : ∀ c ∈ s.data, (hexDigitVal c).isSome = true) :
    uuidStripped s = s.data := by
  have hu : ('u' : Char) ∉ s.data := fun hm => by
    have h2 := h 'u' hm
    rw [show hexDigitVal 'u' = Option.none from by decide] at h2
    exact absurd h2 (by simp)
  rw [uuidStripped, removeOcc_id _ _ _ hu, removeOcc_id _ _ _ hu,
    stripBracesEnds_id _ h]
  refine List.filter_eq_self.mpr fun c hc => ?_
  exact bne_iff_ne.mpr (hexDigit_ne (h c hc) '-' (by decide))

theorem uuidCanon_none_of_digest (s : String)
    (h : ∀ c ∈ s.data, (hexDigitVal c).isSome = true)
    (hlen : s.data.length = 64) : uuidCanon s = Option.none := by
  rw [uuidCanon, uuidStripped_id s h, if_neg]
  intro hc
  rw [hlen] at hc
  exact absurd hc.1 (by omega)

theorem hexListVal_isSome :
    ∀ (l : List Char), (∀ c ∈ l, (hexDigitVal c).isSome = true) →
      (hexListVal l).isSome = true
  | [], _ => rfl
  | c :: rest, h => by
    have hc : (hexDigitVal c).isSome = true := h c (List.mem_cons_self _ _)
    rcases Option.isSome_iff_exists.mp hc with ⟨d, hd⟩
    have hr : (hexListVal rest).isSome = true :=
      hexListVal_isSome rest fun x hx => h x (List.mem_cons_of_mem _ hx)
    rcases Option.isSome_iff_exists.mp hr with ⟨ds, hds⟩
    rw [hexListVal]
    simp [hd, hds]

theorem hexPrefixVal_isSome (s : String)
    (h : ∀ c ∈ s.data, (hexDigitVal c).isSome = true)
    (hne : s.data ≠ []) : (hexPrefixVal s).isSome = true := by
  rw [hexPrefixVal]
  have hemp : (s.data.take 16).isEmpty = false := by
    cases hd : s.data with
    | nil => exact absurd hd hne
    | cons a l => rw [List.take_succ_cons]; rfl
  rw [if_neg (by rw [hemp]; simp)]
  have hl : (hexListVal (s.data.take 16)).isSome = true :=
    hexListVal_isSome _ fun c hc => h c (List.mem_of_mem_take hc)
  rcases Option.isSome_iff_exists.mp hl with ⟨ds, hds⟩
  simp [hds]

/-- C8 (amended): the derivation chain for a point id — a numeric id is used
as-is; a string that parses as a UUID is used in its canonical (normalized
lower-case dashed) form, which equals the input only when the input is
already canonical; otherwise a numeric id is derived from the first 16 hex
characters; otherwise the batch position is used.  A content-hash id (a
64-character hex digest, as produced by `doc_hash`) never falls to the
positional branch, so equal hashes always derive equal point ids regardless
of position. -/
theorem pointid_derivation_chain (s : String) (i j : ℕ) (n : Int) (c : String) :
    pointId (PyVal.int n) i = PointId.num n
    ∧ (uuidCanon s = Option.some c → pointId (PyVal.str s) i = PointId.str c)
    ∧ (uuidCanon s = Option.none → ∀ v, hexPrefixVal s = Option.some v →
      pointId (PyVal.str s) i = PointId.num v)
    ∧ (uuidCanon s = Option.none → hexPrefixVal s = Option.none →
      pointId (PyVal.str s) i = PointId.num i)
    ∧ ((∀ ch ∈ s.data, (hexDigitVal ch).isSome = true) → s.data.length = 64 →
      pointId (PyVal.str s) i = pointId (PyVal.str s) j
      ∧ ∃ v, hexPrefixVal s = Option.some v
        ∧ pointId (PyVal.str s) i = PointId.num v) := by
  refine ⟨rfl, ?_, ?_, ?_, ?_⟩
  · intro h
    simp [pointId, h]
  · intro h1 v h2
    simp [pointId, h1, h2]
  · intro h1 h2
    simp [pointId, h1, h2]
  · intro hhex hlen
    have hu := uuidCanon_none_of_digest s hhex hlen
    have hp := hexPrefixVal_isSome s hhex (by
      intro hd
      rw [hd] at hlen
      exact absurd hlen (by simp))
    rcases Option.isSome_iff_exists.mp hp with ⟨v, hv⟩
    refine ⟨?_, v, hv, ?_⟩ <;> simp [pointId, hu, hv]

/-- Counterexample to C8 as stated: a well-formed but upper-case UUID id is
not used verbatim — `str(uuid.UUID(pid))` canonicalizes it to lower case, as
the full upsert id loop shows. -/
theorem pointid_verbatim_counterexample :
    pointId (PyVal.str "ABCDEF00-0000-4000-8000-000000000000") 0
      = PointId.str "abcdef00-0000-4000-8000-000000000000"
    ∧ ("abcdef00-0000-4000-8000-000000000000" : String)
        ≠ "ABCDEF00-0000-4000-8000-000000000000"
    ∧ qdrantPointIds [⟨PyVal.str "ABCDEF00-0000-4000-8000-000000000000", PyVal.none⟩]
        = [PointId.str "abcdef00-0000-4000-8000-000000000000"] := by
  refine ⟨?_, ?_, ?_⟩ <;> decide

/-- Witness for C8 (amended), one concrete input per branch of the chain:
an integer id, a parseable (upper-case) UUID, a plain hex digest prefix, a
string with no derivable number, and a 64-character hex digest. -/
theorem pointid_derivation_chain_witness :
    pointId (PyVal.int 42) 0 = PointId.num 42
    ∧ pointId (PyVal.str "ABCDEF00-0000-4000-8000-000000000000") 0
        = PointId.str "abcdef00-0000-4000-8000-000000000000"
    ∧ pointId (PyVal.str "deadbeef") 5 = PointId.num 3735928559
    ∧ pointId (PyVal.str "not hex!") 5 = PointId.num 5
    ∧ pointId (PyVal.str (String.mk (List.replicate 64 'a'))) 3
        = pointId (PyVal.str (String.mk (List.replicate 64 'a'))) 9 := by
  refine ⟨(pointid_derivation_chain "" 0 0 42 "").1,
    (pointid_derivation_chain "ABCDEF00-0000-4000-8000-000000000000" 0 0 0 _).2.1
      (by decide),
    (pointid_derivation_chain "deadbeef" 5 0 0 "").2.2.1 (by decide) _ (by decide),
    (pointid_derivation_chain "not hex!" 5 0 0 "").2.2.2.1 (by decide) (by decide),
    ((pointid_derivation_chain (String.mk (List.replicate 64 'a')) 3 9 0 "").2.2.2.2
      (by decide) (by decide)).1⟩

/-! ## Witnesses and the re-ingestion counterexample -/

/-- Witness for C1 (amended) at a concrete three-vector store with `k = 2`
and the stable argsort instance as the admissible implementation. -/
theorem inmemory_search_topk_any_argsort_witness :
    ((memSearchWith argsortDesc (fun _ _ : ℕ => (0 : ℚ)) (fun _ : ℕ => (0 : ℚ))
        ⟨[0, 1, 2], [10, 20, 30], [], List.map (fun _ : ℕ => (0 : ℚ)) [0, 1, 2], []⟩
        7 2 0).1).length = 2
    ∧ List.Sorted (· ≥ ·)
      (((memSearchWith argsortDesc (fun _ _ : ℕ => (0 : ℚ)) (fun _ : ℕ => (0 : ℚ))
        ⟨[0, 1, 2], [10, 20, 30], [], List.map (fun _ : ℕ => (0 : ℚ)) [0, 1, 2], []⟩
        7 2 0).1).map Prod.fst)
    ∧ ((memSearchWith argsortDesc (fun _ _ : ℕ => (0 : ℚ)) (fun _ : ℕ => (0 : ℚ))
        ⟨[0, 1, 2], [10, 20, 30], [], List.map (fun _ : ℕ => (0 : ℚ)) [0, 1, 2], []⟩
        7 2 0).1).map Prod.fst
      = (bruteForceTopK (fun _ _ : ℕ => (0 : ℚ)) (fun _ : ℕ => (0 : ℚ))
          [0, 1, 2] [10, 20, 30] 7 2).map Prod.fst
    ∧ (∃ idxs : List ℕ, idxs.Nodup ∧ idxs.length = 2
        ∧ (∀ i ∈ idxs, i < ([0, 1, 2] : List ℕ).length)
        ∧ (memSearchWith argsortDesc (fun _ _ : ℕ => (0 : ℚ)) (fun _ : ℕ => (0 : ℚ))
            ⟨[0, 1, 2], [10, 20, 30], [], List.map (fun _ : ℕ => (0 : ℚ)) [0, 1, 2], []⟩
            7 2 0).1
          = idxs.map fun i =>
              ((simsOf (fun _ _ : ℕ => (0 : ℚ)) (fun _ : ℕ => (0 : ℚ)) [0, 1, 2]
                  (List.map (fun _ : ℕ => (0 : ℚ)) [0, 1, 2]) 7).getD i 0,
               ([10, 20, 30] : List ℕ).getD i default))
    ∧ ((simsOf (fun _ _ : ℕ => (0 : ℚ)) (fun _ : ℕ => (0 : ℚ)) [0, 1, 2]
          (List.map (fun _ : ℕ => (0 : ℚ)) [0, 1, 2]) 7).Nodup →
        (memSearchWith argsortDesc (fun _ _ : ℕ => (0 : ℚ)) (fun _ : ℕ => (0 : ℚ))
          ⟨[0, 1, 2], [10, 20, 30], [], List.map (fun _ : ℕ => (0 : ℚ)) [0, 1, 2], []⟩
          7 2 0).1
          = bruteForceTopK (fun _ _ : ℕ => (0 : ℚ)) (fun _ : ℕ => (0 : ℚ))
              [0, 1, 2] [10, 20, 30] 7 2) :=
  inmemory_search_topk_any_argsort argsortDesc (fun _ _ : ℕ => (0 : ℚ))
    (fun _ : ℕ => (0 : ℚ))
    ⟨[0, 1, 2], [10, 20, 30], [], List.map (fun _ : ℕ => (0 : ℚ)) [0, 1, 2], []⟩
    7 2 0 argsortDesc_spec rfl rfl (by decide)

/-- Counterexample to C1's tie-break sentence as stated: two stored vectors
tie in score, `k = 2`.  The anti-stable argsort is admissible — it satisfies
the contract NumPy documents for `np.argsort`'s default (unstable) sort, so
nothing in the source rules it out — yet under it `search` returns the tied
entries in reverse insertion order, while the spec's brute-force stable
top-k lists them in insertion order. -/
theorem search_tiebreak_counterexample :
    ArgsortSpec argsortDescAnti
    ∧ (memSearchWith argsortDescAnti (fun _ _ : Unit => (0 : ℚ))
        (fun _ : Unit => (0 : ℚ))
        ⟨[(), ()], [(10 : ℕ), 20], [], List.map (fun _ : Unit => (0 : ℚ)) [(), ()], []⟩
        () 2 0).1
      = [(0, 20), (0, 10)]
    ∧ bruteForceTopK (fun _ _ : Unit => (0 : ℚ)) (fun _ : Unit => (0 : ℚ))
        [(), ()] [(10 : ℕ), 20] () 2
      = [(0, 10), (0, 20)] := by
  have hs : simsOf (fun _ _ : Unit => (0 : ℚ)) (fun _ : Unit => (0 : ℚ))
      [(), ()] (List.map (fun _ : Unit => (0 : ℚ)) [(), ()]) ()
      = [0, 0] := by
    simp [simsOf, eps]
  refine ⟨argsortDescAnti_spec, ?_, ?_⟩
  · have h := memSearchWith_fresh argsortDescAnti argsortDescAnti_spec
      (fun _ _ : Unit => (0 : ℚ)) (fun _ : Unit => (0 : ℚ))
      ⟨[(), ()], [(10 : ℕ), 20], [], List.map (fun _ : Unit => (0 : ℚ)) [(), ()], []⟩
      () 2 0 rfl rfl
    rw [h]
    show (topkIdxWith argsortDescAnti
        (simsOf (fun _ _ : Unit => (0 : ℚ)) (fun _ : Unit => (0 : ℚ)) [(), ()]
          (List.map (fun _ : Unit => (0 : ℚ)) [(), ()]) ()) 2).map
        (fun i =>
          ((simsOf (fun _ _ : Unit => (0 : ℚ)) (fun _ : Unit => (0 : ℚ)) [(), ()]
            (List.map (fun _ : Unit => (0 : ℚ)) [(), ()]) ()).getD i 0,
           ([(10 : ℕ), 20]).getD i default))
      = [(0, 20), (0, 10)]
    rw [hs]
    decide
  · have hb := searchComputeRes_eq_brute (fun _ _ : Unit => (0 : ℚ))
      (fun _ : Unit => (0 : ℚ)) [(), ()] [(10 : ℕ), 20] () 2 (by decide)
    rw [← hb, searchComputeRes, searchComputeResWith_topk, hs]
    decide

/-- Witness for C5 at a concrete one-vector store: a repeated search at a
later time within the TTL, and an invalidating upsert of a fresh pair. -/
theorem cache_hit_and_invalidation_witness :
    ((memSearch (fun _ _ : Unit => (0 : ℚ)) (fun _ : Unit => (0 : ℚ))
        (memSearch (fun _ _ : Unit => (0 : ℚ)) (fun _ : Unit => (0 : ℚ))
          ⟨[()], [5], [], List.map (fun _ : Unit => (0 : ℚ)) [()], []⟩ () 1 0).2
        () 1 1).1
      = (memSearch (fun _ _ : Unit => (0 : ℚ)) (fun _ : Unit => (0 : ℚ))
          ⟨[()], [5], [], List.map (fun _ : Unit => (0 : ℚ)) [()], []⟩ () 1 0).1)
    ∧ ((memUpsert (fun _ : Unit => (0 : ℚ)) (fun _ : ℕ => Option.none)
        ⟨[()], [5], [], List.map (fun _ : Unit => (0 : ℚ)) [()], []⟩ [()] [7]).1.cache = []
      ∧ (memSearch (fun _ _ : Unit => (0 : ℚ)) (fun _ : Unit => (0 : ℚ))
          (memUpsert (fun _ : Unit => (0 : ℚ)) (fun _ : ℕ => Option.none)
            ⟨[()], [5], [], List.map (fun _ : Unit => (0 : ℚ)) [()], []⟩ [()] [7]).1
          () 1 5).1
        = searchComputeRes (fun _ _ : Unit => (0 : ℚ)) (fun _ : Unit => (0 : ℚ))
            (memUpsert (fun _ : Unit => (0 : ℚ)) (fun _ : ℕ => Option.none)
              ⟨[()], [5], [], List.map (fun _ : Unit => (0 : ℚ)) [()], []⟩ [()] [7]).1.vecs
            ((memUpsert (fun _ : Unit => (0 : ℚ)) (fun _ : ℕ => Option.none)
              ⟨[()], [5], [], List.map (fun _ : Unit => (0 : ℚ)) [()], []⟩ [()] [7]).1.vecs.map
              (fun _ : Unit => (0 : ℚ)))
            (memUpsert (fun _ : Unit => (0 : ℚ)) (fun _ : ℕ => Option.none)
              ⟨[()], [5], [], List.map (fun _ : Unit => (0 : ℚ)) [()], []⟩ [()] [7]).1.meta
            () 1) := by
  have h := cache_hit_and_invalidation (fun _ _ : Unit => (0 : ℚ))
    (fun _ : Unit => (0 : ℚ)) (fun _ : ℕ => Option.none)
    ⟨[()], [5], [], List.map (fun _ : Unit => (0 : ℚ)) [()], []⟩ () 1 0 1 5 [()] [7]
  exact ⟨h.1 rfl rfl (by norm_num [cacheTtl]), h.2 (by decide)⟩

/-- Witness for C10: upserting a hash-less metadata record into the empty
store grows it, and the invariant is preserved through a concrete upsert. -/
theorem dedup_only_for_truthy_hashes_witness :
    (((memUpsert (fun _ : Unit => (0 : ℚ)) (fun h : Option String => h)
        (MemStore.empty Unit (Option String)) [()] [Option.none]).2 = 1
      ∧ (memUpsert (fun _ : Unit => (0 : ℚ)) (fun h : Option String => h)
        (MemStore.empty Unit (Option String)) [()] [Option.none]).1.vecs.length
          = (MemStore.empty Unit (Option String)).vecs.length + 1)
    ∧ HashInv (fun h : Option String => h)
        (memUpsert (fun _ : Unit => (0 : ℚ)) (fun h : Option String => h)
          (MemStore.empty Unit (Option String)) [()] [Option.some "a"]).1
    ∧ HashInv (fun h : Option String => h) (MemStore.empty Unit (Option String))) :=
  dedup_only_for_truthy_hashes (fun _ : Unit => (0 : ℚ)) (fun h : Option String => h)
    (MemStore.empty Unit (Option String)) (MemStore.empty Unit (Option String))
    () Option.none [()] [Option.some "a"] rfl
    ⟨fun x hx => absurd hx (List.not_mem_nil x), List.nodup_nil⟩

/-- Counterexample to C2 as stated: a chunk is ingested and then re-ingested
unchanged; the second `ingest_chunks` call returns
`(new_docs, new_chunks) = (0, 1)` — it reports one "new chunk", not zero —
although the store did not grow (still exactly one entry). -/
theorem reingest_count_counterexample :
    (ingest_chunks (fun _ => ()) (fun _ => (0 : ℚ)) (fun t => "h" ++ t)
        (ingest_chunks (fun _ => ()) (fun _ => (0 : ℚ)) (fun t => "h" ++ t)
          ⟨MemStore.empty Unit ChunkMeta, [], 0, 0⟩
          [⟨"doc.md", Option.none, "hello"⟩]).2
        [⟨"doc.md", Option.none, "hello"⟩]).1 = (0, 1)
    ∧ ((0, 1) : ℕ × ℕ) ≠ (0, 0)
    ∧ (ingest_chunks (fun _ => ()) (fun _ => (0 : ℚ)) (fun t => "h" ++ t)
          ⟨MemStore.empty Unit ChunkMeta, [], 0, 0⟩
          [⟨"doc.md", Option.none, "hello"⟩]).2.store.vecs.length = 1
    ∧ (ingest_chunks (fun _ => ()) (fun _ => (0 : ℚ)) (fun t => "h" ++ t)
        (ingest_chunks (fun _ => ()) (fun _ => (0 : ℚ)) (fun t => "h" ++ t)
          ⟨MemStore.empty Unit ChunkMeta, [], 0, 0⟩
          [⟨"doc.md", Option.none, "hello"⟩]).2
        [⟨"doc.md", Option.none, "hello"⟩]).2.store.vecs.length = 1 := by
  refine ⟨?_, ?_, ?_, ?_⟩ <;> decide

/-- Witness for C2 (amended) at the concrete re-ingestion scenario of the
counterexample, plus a concrete double upsert of one fresh pair. -/
theorem upsert_idempotent_reingest_counts_witness :
    ((memUpsert (fun _ : Unit => (0 : ℚ)) chunkMetaHash
        (MemStore.empty Unit ChunkMeta) [()]
        [⟨"h1", "h1", "t", Option.none, "x"⟩]).1.vecs.length
          = (MemStore.empty Unit ChunkMeta).vecs.length + 1
      ∧ memUpsert (fun _ : Unit => (0 : ℚ)) chunkMetaHash
          (memUpsert (fun _ : Unit => (0 : ℚ)) chunkMetaHash
            (MemStore.empty Unit ChunkMeta) [()]
            [⟨"h1", "h1", "t", Option.none, "x"⟩]).1 [()]
          [⟨"h1", "h1", "t", Option.none, "x"⟩]
        = ((memUpsert (fun _ : Unit => (0 : ℚ)) chunkMetaHash
            (MemStore.empty Unit ChunkMeta) [()]
            [⟨"h1", "h1", "t", Option.none, "x"⟩]).1, 0))
    ∧ (ingest_chunks (fun _ => ()) (fun _ => (0 : ℚ)) (fun t => "h" ++ t)
        (ingest_chunks (fun _ => ()) (fun _ => (0 : ℚ)) (fun t => "h" ++ t)
          ⟨MemStore.empty Unit ChunkMeta, [], 0, 0⟩
          [⟨"doc.md", Option.none, "hello"⟩]).2
        [⟨"doc.md", Option.none, "hello"⟩]).1
      = (0, [(⟨"doc.md", Option.none, "hello"⟩ : Chunk)].length)
    ∧ (ingest_chunks (fun _ => ()) (fun _ => (0 : ℚ)) (fun t => "h" ++ t)
        (ingest_chunks (fun _ => ()) (fun _ => (0 : ℚ)) (fun t => "h" ++ t)
          ⟨MemStore.empty Unit ChunkMeta, [], 0, 0⟩
          [⟨"doc.md", Option.none, "hello"⟩]).2
        [⟨"doc.md", Option.none, "hello"⟩]).2.store
      = (ingest_chunks (fun _ => ()) (fun _ => (0 : ℚ)) (fun t => "h" ++ t)
          ⟨MemStore.empty Unit ChunkMeta, [], 0, 0⟩
          [⟨"doc.md", Option.none, "hello"⟩]).2.store :=
  upsert_idempotent_reingest_counts (fun _ => ()) (fun _ => (0 : ℚ))
    (fun t => "h" ++ t)
    (ingest_chunks (fun _ => ()) (fun _ => (0 : ℚ)) (fun t => "h" ++ t)
      ⟨MemStore.empty Unit ChunkMeta, [], 0, 0⟩
      [⟨"doc.md", Option.none, "hello"⟩]).2
    [⟨"doc.md", Option.none, "hello"⟩]
    (MemStore.empty Unit ChunkMeta) () ⟨"h1", "h1", "t", Option.none, "x"⟩ "h1"
    rfl (by decide) (by decide) (by decide) (by decide)

end PolicyHelper
